import Mathlib

/-!
Verification development for the HUD normalizer (hud_normalizer.py).

The program is a batch text-rewriting tool over a directory tree:
it lowercases file names, rewrites font paths in clientscheme files,
and rewrites relative include paths in .cfg and .res files.

This file gives a shallow embedding:
* file contents and paths are lists of characters;
* each Python regex substitution is embedded as an executable scanner that
  reproduces the leftmost, non-overlapping match semantics of `re.sub` for
  the concrete pattern used by the source (including the lazy and greedy
  quantifier behaviour of the concrete pattern);
* `str.lower` is embedded as ASCII lowercasing (the tool's inputs are ASCII
  directive grammars); `str.replace('\\', '/')` as a character map;
* the filesystem is a list of segment paths (for the renaming stage) or an
  association list from paths to contents (for the content stages).

Definitions are translated from the source; theorems settle the claims.
-/

namespace HudNorm

/-! ### Character level: ASCII lowercasing and backslash conversion -/

/-- ASCII lowercasing of one character, embedding `str.lower` on the
ASCII directive grammars the tool rewrites. -/
def lowerChar (c : Char) : Char :=
  if 65 ≤ c.toNat ∧ c.toNat ≤ 90 then Char.ofNat (c.toNat + 32) else c

/-- Backslash-to-forward-slash conversion of one character, embedding
`str.replace('\\', '/')` as a character map. -/
def slashChar (c : Char) : Char :=
  if c = '\\' then '/' else c

/-- Backslash conversion followed by lowercasing, the composite used by
`normalize_clientscheme_font_paths` and `normalize_res_base_paths`. -/
def slashLower (c : Char) : Char := lowerChar (slashChar c)

theorem toNat_ofNat_valid {n : Nat} (h : Nat.isValidChar n) :
    (Char.ofNat n).toNat = n := by
  simp [Char.ofNat, h, Char.ofNatAux, Char.toNat, UInt32.toNat, BitVec.toNat_ofNatLt]

theorem char_eq_of_toNat_eq {a b : Char} (h : a.toNat = b.toNat) : a = b := by
  apply Char.eq_of_val_eq
  apply UInt32.eq_of_toBitVec_eq
  exact BitVec.eq_of_toNat_eq h

theorem toNat_lowerChar (c : Char) :
    (lowerChar c).toNat =
      if 65 ≤ c.toNat ∧ c.toNat ≤ 90 then c.toNat + 32 else c.toNat := by
  unfold lowerChar
  split
  · next h => exact toNat_ofNat_valid (Or.inl (by omega))
  · rfl

theorem lowerChar_idem (c : Char) : lowerChar (lowerChar c) = lowerChar c := by
  apply char_eq_of_toNat_eq
  rw [toNat_lowerChar, toNat_lowerChar]
  split_ifs <;> omega

/-- A character whose code is neither an uppercase nor a lowercase ASCII
letter is produced by `lowerChar` only from itself. -/
theorem eq_of_lowerChar_eq_nonletter {c d : Char}
    (hd : d.toNat < 65 ∨ (90 < d.toNat ∧ d.toNat < 97) ∨ 122 < d.toNat)
    (h : lowerChar c = d) : c = d := by
  have ht := congrArg Char.toNat h
  rw [toNat_lowerChar] at ht
  apply char_eq_of_toNat_eq
  by_cases hc : 65 ≤ c.toNat ∧ c.toNat ≤ 90
  · rw [if_pos hc] at ht; omega
  · rwa [if_neg hc] at ht

theorem lowerChar_fixed_nonupper {c : Char}
    (h : ¬ (65 ≤ c.toNat ∧ c.toNat ≤ 90)) : lowerChar c = c := by
  unfold lowerChar; exact if_neg h

theorem slashChar_ne_backslash (c : Char) : slashChar c ≠ '\\' := by
  unfold slashChar
  split
  · decide
  · next h => exact h

theorem slashChar_fixed {c : Char} (h : c ≠ '\\') : slashChar c = c := by
  unfold slashChar; exact if_neg h

theorem slashChar_idem (c : Char) : slashChar (slashChar c) = slashChar c :=
  slashChar_fixed (slashChar_ne_backslash c)

theorem lowerChar_ne_backslash {c : Char} (h : c ≠ '\\') : lowerChar c ≠ '\\' := by
  intro he
  exact h (eq_of_lowerChar_eq_nonletter (by right; left; constructor <;> decide) he)

theorem slashChar_lowerChar_comm (c : Char) :
    slashChar (lowerChar c) = lowerChar (slashChar c) := by
  by_cases h : c = '\\'
  · subst h; decide
  · rw [slashChar_fixed h, slashChar_fixed (lowerChar_ne_backslash h)]

theorem slashLower_idem (c : Char) : slashLower (slashLower c) = slashLower c := by
  unfold slashLower
  rw [slashChar_lowerChar_comm, slashChar_idem, lowerChar_idem]

/-! ### Character classes used by the embedded regular expressions -/

/-- Whitespace as matched by the regex class in the directive grammars
(space, tab, newline, carriage return, vertical tab, form feed). -/
def isSpaceChar (c : Char) : Bool :=
  (9 ≤ c.toNat && c.toNat ≤ 13) || c.toNat = 32

/-! ### String utilities over lists of characters -/

/-- Substring test, embedding the Python `in` operator on strings. -/
def containsStr (pat : List Char) : List Char → Bool
  | [] => pat.isEmpty
  | c :: t => pat.isPrefixOf (c :: t) || containsStr pat t

/-- Number of non-overlapping occurrences of `"../"` scanned from the left,
embedding `path.count('../')`. -/
def countUps : List Char → Nat
  | '.' :: '.' :: '/' :: t => countUps t + 1
  | _ :: t => countUps t
  | [] => 0

/-- Strip every leading `"../"` segment, embedding
`extract_path_after_parents` from the source. -/
def extract_path_after_parents : List Char → List Char
  | '.' :: '.' :: '/' :: t => extract_path_after_parents t
  | s => s

/-- Length of the leading run of `"../"` segments of a path. -/
def leadingUps : List Char → Nat
  | '.' :: '.' :: '/' :: t => leadingUps t + 1
  | _ => 0

/-- The string `"../"` repeated `n` times, embedding `'../' * n`. -/
def upsN : Nat → List Char
  | 0 => []
  | n + 1 => '.' :: '.' :: '/' :: upsN n

/-- Case-insensitive prefix test against an already-lowercase pattern,
embedding how `re.IGNORECASE` matches a literal. -/
def ciStarts : List Char → List Char → Bool
  | [], _ => true
  | _ :: _, [] => false
  | p :: ps, c :: cs => (lowerChar c = p : Bool) && ciStarts ps cs

/-- Split off the maximal leading whitespace run (`\s+` is greedy and the
following literal is never whitespace in the embedded patterns). -/
def wsSplit : List Char → List Char × List Char
  | [] => ([], [])
  | c :: t =>
    if isSpaceChar c then
      let p := wsSplit t
      (c :: p.1, p.2)
    else ([], c :: t)

/-- Split off the maximal run of non-quote characters (`[^"]*`); the rest
starts with `'"'` or is empty. -/
def splitAtQuote : List Char → List Char × List Char
  | [] => ([], [])
  | c :: t =>
    if c = '"' then ([], c :: t)
    else
      let p := splitAtQuote t
      (c :: p.1, p.2)

/-- Lazy scan for `(.*?)"`: the shortest run of non-newline characters up to
a closing double quote; returns the run and the suffix after the quote. -/
def takeValue : List Char → Option (List Char × List Char)
  | [] => none
  | c :: t =>
    if c = '"' then some ([], t)
    else if c = '\n' then none
    else (takeValue t).map (fun p => (c :: p.1, p.2))

/-! ### A generic `re.sub` scanner

`re.sub` scans the subject left to right; at each position it attempts an
anchored match, and on success emits the replacement and resumes after the
match (all the embedded patterns consume at least one character), otherwise
it emits the character and advances by one.  The matcher `m` returns the
replacement text and the unconsumed suffix. -/

def scanSub (m : List Char → Option (List Char × List Char)) :
    Nat → List Char → List Char
  | 0, s => s
  | _ + 1, [] => []
  | fuel + 1, c :: t =>
    match m (c :: t) with
    | some p => p.1 ++ scanSub m fuel p.2
    | none => c :: scanSub m fuel t

/-- A matcher consumes at least one character whenever it fires. -/
def Shrinking (m : List Char → Option (List Char × List Char)) : Prop :=
  ∀ s p, m s = some p → p.2.length < s.length

/-- `re.sub` for matcher `m`: run the scanner with enough fuel. -/
def runSub (m : List Char → Option (List Char × List Char))
    (s : List Char) : List Char :=
  scanSub m s.length s

theorem scanSub_nil (m) : ∀ fuel, scanSub m fuel [] = [] := by
  intro fuel; cases fuel <;> rfl

theorem scanSub_cons (m) (fuel : Nat) (c : Char) (t : List Char) :
    scanSub m (fuel + 1) (c :: t) =
      match m (c :: t) with
      | some p => p.1 ++ scanSub m fuel p.2
      | none => c :: scanSub m fuel t := rfl

theorem scanSub_congr (m) (hm : Shrinking m) :
    ∀ f1 f2 s, s.length ≤ f1 → s.length ≤ f2 →
      scanSub m f1 s = scanSub m f2 s := by
  intro f1
  induction f1 with
  | zero =>
    intro f2 s h1 _
    have : s = [] := List.length_eq_zero.mp (Nat.le_zero.mp h1)
    subst this
    rw [scanSub_nil, scanSub_nil]
  | succ f1 ih =>
    intro f2 s h1 h2
    cases s with
    | nil => rw [scanSub_nil, scanSub_nil]
    | cons c t =>
      cases f2 with
      | zero => simp at h2
      | succ f2 =>
        rw [scanSub_cons, scanSub_cons]
        cases hmc : m (c :: t) with
        | none =>
          have ht : t.length ≤ f1 := by simp at h1; omega
          have ht2 : t.length ≤ f2 := by simp at h2; omega
          dsimp only
          rw [ih f2 t ht ht2]
        | some p =>
          have hp := hm _ _ hmc
          simp only [List.length_cons] at h1 h2 hp
          have hr1 : p.2.length ≤ f1 := by omega
          have hr2 : p.2.length ≤ f2 := by omega
          dsimp only
          rw [ih f2 p.2 hr1 hr2]

theorem runSub_nil (m) : runSub m [] = [] := rfl

theorem runSub_nomatch {m : List Char → Option (List Char × List Char)}
    {c : Char} {t : List Char} (h : m (c :: t) = none) :
    runSub m (c :: t) = c :: runSub m t := by
  show scanSub m (t.length + 1) (c :: t) = c :: scanSub m t.length t
  rw [scanSub_cons, h]

theorem runSub_match {m : List Char → Option (List Char × List Char)}
    (hm : Shrinking m) {s em rest : List Char} (h : m s = some (em, rest)) :
    runSub m s = em ++ runSub m rest := by
  cases s with
  | nil =>
    have := hm _ _ h
    simp at this
  | cons c t =>
    show scanSub m (t.length + 1) (c :: t) = em ++ scanSub m rest.length rest
    rw [scanSub_cons, h]
    have hp := hm _ _ h
    simp only [List.length_cons] at hp
    dsimp only
    rw [scanSub_congr m hm t.length rest.length rest (by omega) (le_refl _)]

/-! ### Path rewriters: the inner replacement functions of the source -/

/-- `CFG_DEPTH_OFFSET`: files need `depth + 2` levels of `../` to reach
`tf/cfg/`. -/
def CFG_DEPTH_OFFSET : Nat := 2

/-- `normalize_cfg_path`, the replacement applied by
`normalize_cfg_paths_in_res` to each matched path: convert backslashes,
and when the path contains `/cfg/` and its `../` count is not
`file_depth + 2`, strip all leading `../` and re-prefix with exactly that
many; finally lowercase. -/
def normalize_cfg_path (file_depth : Nat) (path : List Char) : List Char :=
  let p := List.map slashChar path
  let p :=
    if containsStr "/cfg/".data p then
      if countUps p ≠ file_depth + CFG_DEPTH_OFFSET then
        upsN (file_depth + CFG_DEPTH_OFFSET) ++ extract_path_after_parents p
      else p
    else p
  List.map lowerChar p

/-- The canonical segment `/custom/<hud>/<seg>/` used in the guards of
`normalize_echo_path`. -/
def canonSeg (hud seg : List Char) : List Char :=
  "/custom/".data ++ hud ++ '/' :: seg ++ ['/']

/-- Maximal leading run of `"../"` segments: its length and the suffix. -/
def upsRun : List Char → Nat × List Char
  | '.' :: '.' :: '/' :: t =>
    let p := upsRun t
    (p.1 + 1, p.2)
  | s => (0, s)

/-- Matcher for the inner substitution `(\.\./)+<seg>/` (case-sensitive):
a maximal nonempty run of `../` directly followed by `<seg>/`, replaced by
`../../custom/<hud>/<seg>/`. -/
def upsSegMatch (seg hud : List Char) (s : List Char) :
    Option (List Char × List Char) :=
  let p := upsRun s
  if p.1 = 0 then none
  else if (seg ++ ['/']).isPrefixOf p.2 then
    some ("../../custom/".data ++ hud ++ '/' :: seg ++ ['/'],
      p.2.drop (seg.length + 1))
  else none

/-- The substitution `re.sub(r'(\.\./)+<seg>/', '../../custom/<hud>/<seg>/', path)`. -/
def upsSegSub (seg hud : List Char) (s : List Char) : List Char :=
  runSub (upsSegMatch seg hud) s

/-- `normalize_echo_path`, the replacement applied by
`normalize_cfg_echo_paths` to each matched path. -/
def normalize_echo_path (hud_name : List Char) (path : List Char) : List Char :=
  let p := List.map slashChar path
  let p :=
    if containsStr "/resource/".data p ∧
        ¬ containsStr (canonSeg hud_name "resource".data) p then
      upsSegSub "resource".data hud_name p
    else p
  let p :=
    if containsStr "/scripts/".data p ∧
        ¬ containsStr (canonSeg hud_name "scripts".data) p then
      upsSegSub "scripts".data hud_name p
    else p
  List.map lowerChar p

/-! ### Matchers for the content-level regex substitutions -/

/-- Matcher for `("font"\s+")(.*?)(")` (case-sensitive): the literal
`"font"`, whitespace, an opening quote, the lazily matched value, and the
closing quote; the replacement converts backslashes and lowercases the
value, keeping everything else verbatim. -/
def fontMatch (s : List Char) : Option (List Char × List Char) :=
  match s with
  | '"' :: 'f' :: 'o' :: 'n' :: 't' :: '"' :: rest =>
    let w := wsSplit rest
    if w.1.isEmpty then none
    else
      match w.2 with
      | '"' :: rest2 =>
        match takeValue rest2 with
        | some v =>
          some ('"' :: 'f' :: 'o' :: 'n' :: 't' :: '"' :: w.1 ++
            '"' :: List.map slashLower v.1 ++ ['"'], v.2)
        | none => none
      | _ => none
  | _ => none

/-- Body search for `(.*?cfg[^"]+)(")`: find the earliest case-insensitive
`cfg` occurrence (the lazy `.*?` gap may not contain a newline but may
contain quotes) whose tail has a nonempty run of non-quote characters
ending at a closing quote; on failure at one occurrence the scan backtracks
to the next occurrence.  Returns the matched group and the suffix after the
closing quote. -/
def cfgBody : List Char → Option (List Char × List Char)
  | [] => none
  | c :: t =>
    if ciStarts "cfg".data (c :: t) then
      match splitAtQuote ((c :: t).drop 3) with
      | (run, '"' :: r2) =>
        if run.isEmpty then
          if c = '\n' then none
          else (cfgBody t).map (fun p => (c :: p.1, p.2))
        else some ((c :: t).take 3 ++ run, r2)
      | _ =>
        if c = '\n' then none
        else (cfgBody t).map (fun p => (c :: p.1, p.2))
    else
      if c = '\n' then none
      else (cfgBody t).map (fun p => (c :: p.1, p.2))

/-- Matcher for `(#base\s+")(.*?cfg[^"]+)(")` with `re.IGNORECASE`; the
replacement rewrites the matched path through `normalize_cfg_path`. -/
def baseCfgMatch (file_depth : Nat) (s : List Char) :
    Option (List Char × List Char) :=
  if ciStarts "#base".data s then
    let w := wsSplit (s.drop 5)
    if w.1.isEmpty then none
    else
      match w.2 with
      | '"' :: rest2 =>
        match cfgBody rest2 with
        | some p =>
          some (s.take 5 ++ w.1 ++
            '"' :: normalize_cfg_path file_depth p.1 ++ ['"'], p.2)
        | none => none
      | _ => none
  else none

/-- `normalize_cfg_paths_in_res`: normalize `#base` paths to cfg files in
`.res` file content. -/
def normalize_cfg_paths_in_res (content : List Char) (file_depth : Nat) :
    List Char :=
  runSub (baseCfgMatch file_depth) content

/-- The apostrophe character, one of the optional quotes of the echo
directive grammar. -/
def apos : Char := Char.ofNat 39

/-- Optionally consume one quote character (double or single); the consumed
characters are re-emitted verbatim. -/
def optQuote : List Char → List Char × List Char
  | [] => ([], [])
  | c :: t => if c = '"' ∨ c = apos then ([c], t) else ([], c :: t)

/-- Lazy search for `.*?\.(?:res|vmt)` (case-insensitive): the earliest
`.res` / `.vmt` extension reachable without crossing a newline; returns the
matched text (gap plus extension) and the suffix. -/
def extSearch : List Char → Option (List Char × List Char)
  | [] => none
  | c :: t =>
    if c = '.' ∧ (ciStarts "res".data t ∨ ciStarts "vmt".data t) then
      some (c :: t.take 3, t.drop 3)
    else if c = '\n' then none
    else (extSearch t).map (fun p => (c :: p.1, p.2))

/-- Split a string into its first line (without the newline) and the
remainder starting at the newline, as `.*` matches in a non-DOTALL regex. -/
def lineRest : List Char → List Char × List Char
  | [] => ([], [])
  | c :: t =>
    if c = '\n' then ([], c :: t)
    else
      let p := lineRest t
      (c :: p.1, p.2)

/-- Matcher for
`(echo\s+["\']?#base["\']?\s+["\']?)(.*?\.(?:res|vmt))(["\']?.*)` with
`re.IGNORECASE`; the replacement rewrites the matched path through
`normalize_echo_path` and keeps prefix and suffix verbatim. -/
def echoMatch (hud_name : List Char) (s : List Char) :
    Option (List Char × List Char) :=
  if ciStarts "echo".data s then
    let w := wsSplit (s.drop 4)
    if w.1.isEmpty then none
    else
      let q1 := optQuote w.2
      if ciStarts "#base".data q1.2 then
        let q2 := optQuote (q1.2.drop 5)
        let w2 := wsSplit q2.2
        if w2.1.isEmpty then none
        else
          let q3 := optQuote w2.2
          match extSearch q3.2 with
          | some g =>
            let lr := lineRest g.2
            some (s.take 4 ++ w.1 ++ q1.1 ++ q1.2.take 5 ++ q2.1 ++ w2.1 ++
              q3.1 ++ normalize_echo_path hud_name g.1 ++ lr.1, lr.2)
          | none => none
      else none
  else none

/-- `normalize_cfg_echo_paths`: normalize `echo #base` commands in `.cfg`
file content to use explicit paths. -/
def normalize_cfg_echo_paths (content : List Char) (hud_name : List Char) :
    List Char :=
  runSub (echoMatch hud_name) content

/-- Maximal run of characters that are neither a quote nor the start of a
case-insensitive `cfg`, embedding `(?:(?!cfg)[^"])+`. -/
def noCfgRun : List Char → List Char × List Char
  | [] => ([], [])
  | c :: t =>
    if c = '"' ∨ ciStarts "cfg".data (c :: t) then ([], c :: t)
    else
      let p := noCfgRun t
      (c :: p.1, p.2)

/-- Head-is-quote test. -/
def headIsQuote : List Char → Bool
  | '"' :: _ => true
  | _ => false

/-- Greedy backtracking search for `\.res"` after at least one body
character: try the longest split first (`k` counts down the candidate body
length).  Returns the matched group (body plus `.res`) and the suffix after
the closing quote. -/
def tryDotRes : Nat → List Char → Option (List Char × List Char)
  | 0, _ => none
  | k + 1, s =>
    if ciStarts ".res".data (s.drop (k + 1)) ∧ headIsQuote (s.drop (k + 5)) then
      some (s.take (k + 5), s.drop (k + 6))
    else tryDotRes k s

/-- Matcher for `(#base\s+")((?:(?!cfg)[^"])+\.res)(")` with
`re.IGNORECASE`; the replacement converts backslashes and lowercases the
path. -/
def baseResMatch (s : List Char) : Option (List Char × List Char) :=
  if ciStarts "#base".data s then
    let w := wsSplit (s.drop 5)
    if w.1.isEmpty then none
    else
      match w.2 with
      | '"' :: rest2 =>
        match tryDotRes (noCfgRun rest2).1.length rest2 with
        | some p =>
          some (s.take 5 ++ w.1 ++ '"' :: List.map slashLower p.1 ++ ['"'], p.2)
        | none => none
      | _ => none
  else none

/-- `normalize_res_base_paths`: normalize `#base` directives pointing to
`.res` files (but not cfg paths). -/
def normalize_res_base_paths (content : List Char) : List Char :=
  runSub baseResMatch content

/-- Matcher for `(")((?:resource|scripts)[/\\][^"]+)` with `re.IGNORECASE`;
the replacement converts backslashes and lowercases the quoted path. -/
def schemaMatch (s : List Char) : Option (List Char × List Char) :=
  match s with
  | '"' :: t =>
    let segLen :=
      if ciStarts "resource".data t then some 8
      else if ciStarts "scripts".data t then some 7
      else none
    match segLen with
    | some n =>
      match t.drop n with
      | c :: r =>
        if c = '/' ∨ c = '\\' then
          let q := splitAtQuote r
          if q.1.isEmpty then none
          else some ('"' :: List.map slashLower (t.take n ++ c :: q.1), q.2)
        else none
      | [] => none
    | none => none
  | _ => none

/-- `normalize_schema_declarations`: normalize schema declarations in
`.res` file content. -/
def normalize_schema_declarations (content : List Char) : List Char :=
  runSub schemaMatch content

/-- The content transformation of `normalize_clientscheme_font_paths`:
lowercase font file paths in clientscheme content. -/
def clientschemeFontRewrite (content : List Char) : List Char :=
  runSub fontMatch content

/-- The composite content transformation `process_res_files` applies to one
`.res` file: cfg-base, res-base, then schema normalization. -/
def resFileRewrite (file_depth : Nat) (content : List Char) : List Char :=
  normalize_schema_declarations
    (normalize_res_base_paths (normalize_cfg_paths_in_res content file_depth))

/-! ### Filesystem model

Paths are lists of name segments (each a list of characters), relative to
the directory being normalized.  For the renaming stage a filesystem is the
list of all entry paths (files and directories, as enumerated by
`rglob('*')`); it is prefix-closed when every ancestor of an entry is
itself an entry, as in a real filesystem. -/

/-- A name segment of a filesystem path. -/
abbrev Seg := List Char

/-- A filesystem path as a list of name segments. -/
abbrev FsPath := List Seg

/-- The basename of a path (`item.name`). -/
def lastSeg (p : FsPath) : Seg := p.getLastD []

/-- Lowercase a name segment. -/
def lowSeg (s : Seg) : Seg := List.map lowerChar s

/-- Effect of `item.rename(target)` on one recorded path: paths inside the
renamed entry move with it. -/
def renamePath (old new p : FsPath) : FsPath :=
  if old.isPrefixOf p then new ++ p.drop old.length else p

/-- `item.parent / item.name.lower()`, the rename target of an entry. -/
def renameTarget (item : FsPath) : FsPath :=
  item.dropLast ++ [lowSeg (lastSeg item)]

/-- One iteration of the `normalize_filenames` loop: if the basename is not
already lowercase and the lowercase target does not exist, rename. -/
def fnStep (fs : List FsPath) (item : FsPath) : List FsPath :=
  if lastSeg item ≠ lowSeg (lastSeg item) ∧ renameTarget item ∉ fs then
    fs.map (renamePath item (renameTarget item))
  else fs

/-- `sorted(hud_dir.rglob('*'), key=lambda p: len(p.parts), reverse=True)`:
all entries, deepest paths first. -/
def sortByDepth (fs : List FsPath) : List FsPath :=
  fs.mergeSort (fun a b => decide (b.length ≤ a.length))

/-- `normalize_filenames`: recursively rename all files and folders to
lowercase, deepest paths first, skipping case collisions. -/
def normalize_filenames (fs : List FsPath) : List FsPath :=
  (sortByDepth fs).foldl fnStep fs

/-! ### Clientscheme processing over a content filesystem -/

/-- A filesystem carrying file contents (association list). -/
abbrev CFS := List (FsPath × List Char)

/-- Does a path exist as a file, and with which content. -/
def lookupFS (fs : CFS) (p : FsPath) : Option (List Char) :=
  (fs.find? (fun e => decide (e.1 = p))).map Prod.snd

/-- Overwrite the content of a file (`file.write_text`). -/
def updateFS (fs : CFS) (p : FsPath) (c : List Char) : CFS :=
  fs.map (fun e => if e.1 = p then (p, c) else e)

/-- Lexical path resolution (`Path.resolve()`): fold segments, popping on
`..` and skipping `.` and empty segments. -/
def resolveSegs (p : FsPath) : FsPath :=
  p.foldl
    (fun acc seg =>
      if seg = "..".data then acc.dropLast
      else if seg = ".".data ∨ seg = [] then acc
      else acc ++ [seg])
    []

/-- Split a textual relative path at forward slashes into segments. -/
def splitSlash : List Char → List Seg
  | [] => [[]]
  | '/' :: t => [] :: splitSlash t
  | c :: t =>
    match splitSlash t with
    | s :: rest => (c :: s) :: rest
    | [] => [[c]]

/-- Scan content for `^#base\s+"([^"]+)"` matches (`re.MULTILINE`): the
flag tracks whether the scan is at a line start; fuelled because a match
consumes more than one character. -/
def extractBases : Nat → Bool → List Char → List (List Char)
  | 0, _, _ => []
  | _ + 1, _, [] => []
  | fuel + 1, atLS, c :: t =>
    if atLS ∧ "#base".data.isPrefixOf (c :: t) then
      let w := wsSplit ((c :: t).drop 5)
      if w.1.isEmpty then extractBases fuel (c = '\n') t
      else
        match w.2 with
        | '"' :: r2 =>
          match splitAtQuote r2 with
          | (run, '"' :: r3) =>
            if run.isEmpty then extractBases fuel (c = '\n') t
            else run :: extractBases fuel false r3
          | _ => extractBases fuel (c = '\n') t
        | _ => extractBases fuel (c = '\n') t
    else extractBases fuel (c = '\n') t

/-- The `#base` include paths of a clientscheme file. -/
def extract_base_list (content : List Char) : List (List Char) :=
  extractBases content.length true content

/-- `process_clientscheme`: recursively process a clientscheme file and all
its `#base` includes.  Returns the updated filesystem, the visited set, the
number of modified files, and the trace of files font-normalized (in
order).  Fuelled: each recursive level visits a fresh file, so any fuel
above the number of unvisited files gives the same result. -/
def process_clientscheme : Nat → CFS → FsPath → List FsPath →
    CFS × List FsPath × Nat × List FsPath
  | 0, fs, _, vis => (fs, vis, 0, [])
  | fuel + 1, fs, file, vis =>
    let f := resolveSegs file
    if f ∈ vis then (fs, vis, 0, [])
    else
      match lookupFS fs f with
      | none => (fs, vis, 0, [])
      | some content =>
        let c2 := clientschemeFontRewrite content
        let changed := c2 ≠ content
        let fs1 := if changed then updateFS fs f c2 else fs
        (extract_base_list c2).foldl
          (fun acc b =>
            let r := process_clientscheme fuel acc.1 (f.dropLast ++ splitSlash b) acc.2.1
            (r.1, r.2.1, acc.2.2.1 + r.2.2.1, acc.2.2.2 ++ r.2.2.2))
          (fs1, f :: vis, if changed then 1 else 0, [f])

/-- Number of files not yet visited, the termination measure of the
clientscheme walk. -/
def unvisitedCount (fs : CFS) (vis : List FsPath) : Nat :=
  ((fs.map Prod.fst).filter (fun p => decide (p ∉ vis))).length

/-- `normalize_clientschemes`: start at `resource/clientscheme.res` under
the given root path and follow includes. -/
def normalize_clientschemes (fs : CFS) (root : FsPath) : CFS :=
  (process_clientscheme (fs.length + 1) fs
    (root ++ ["resource".data, "clientscheme.res".data]) []).1

/-! ### The cfg / res stages and `main` over a world with directories -/

/-- A filesystem with directories: entries are paths with `none` for a
directory and `some content` for a file. -/
abbrev World := List (FsPath × Option (List Char))

/-- Does a suffix test hold on a name (glob `*.ext`). -/
def endsWith (suffix s : List Char) : Bool := suffix.isSuffixOf s

/-- `process_cfg_files`: rewrite every `*.cfg` file under `<root>/cfg`
through `normalize_cfg_echo_paths`; no-op when the cfg folder is absent. -/
def process_cfg_files (w : World) (root : Seg) (hud_name : List Char) : World :=
  if w.any (fun e => decide (e.1 = [root, "cfg".data])) then
    w.map (fun e =>
      match e.2 with
      | some c =>
        if [root, "cfg".data].isPrefixOf e.1 ∧ endsWith ".cfg".data (lastSeg e.1) then
          (e.1, some (normalize_cfg_echo_paths c hud_name))
        else e
      | none => e)
  else w

/-- `process_res_files`: rewrite every `*.res` file under the root through
the three-pass `.res` normalization, at its depth below the root. -/
def process_res_files (w : World) (root : Seg) : World :=
  w.map (fun e =>
    match e.2 with
    | some c =>
      if [root].isPrefixOf e.1 ∧ endsWith ".res".data (lastSeg e.1) then
        (e.1, some (resFileRewrite (e.1.length - 2) c))
      else e
    | none => e)

/-- `normalize_logbase_paths`: cfg stage then res stage; the hud name is
the root directory's own name. -/
def normalize_logbase_paths (w : World) (root : Seg) : World :=
  process_res_files (process_cfg_files w root root) root

/-- The renaming stage over a world (same loop as `normalize_filenames`,
carrying the contents along): entries strictly under the root, deepest
first. -/
def fnStepW (w : World) (item : FsPath) : World :=
  if lastSeg item ≠ lowSeg (lastSeg item) ∧
      ¬ (w.any (fun e => decide (e.1 = renameTarget item)) = true) then
    w.map (fun e => (renamePath item (renameTarget item) e.1, e.2))
  else w

/-- `normalize_filenames` over a world rooted at `root`. -/
def normalize_filenames_world (w : World) (root : Seg) : World :=
  (((w.map Prod.fst).filter
      (fun p => decide (p.head? = some root) && decide (2 ≤ p.length))).mergeSort
    (fun a b => decide (b.length ≤ a.length))).foldl fnStepW w

/-- The clientscheme stage over a world: run the include walk on the file
part and write the resulting contents back. -/
def normalize_clientschemes_world (w : World) (root : Seg) : World :=
  let fs := w.filterMap (fun e => e.2.map (fun c => (e.1, c)))
  let fs2 := normalize_clientschemes fs [root]
  w.map (fun e =>
    match e.2 with
    | some c => (e.1, some ((lookupFS fs2 e.1).getD c))
    | none => e)

/-- Rename the root directory itself to its lowercase name. -/
def renameRootW (w : World) (old new : Seg) : World :=
  w.map (fun e => (renamePath [old] [new] e.1, e.2))

/-- `main`: check the usage errors (missing argument, path not found, path
not a directory) before touching the filesystem; otherwise lowercase the
root folder name and run the three stages.  Returns the exit status and the
final world; the error paths perform no mutation. -/
def mainModel (argv : List (List Char)) (w : World) : Nat × World :=
  match argv with
  | _ :: name :: _ =>
    if ¬ (w.any (fun e => decide (e.1 = [name])) = true) then (1, w)
    else if ¬ (w.any (fun e => decide (e.1 = [name]) && e.2.isNone) = true) then (1, w)
    else
      let low := lowSeg name
      let w1 := if name ≠ low then renameRootW w name low else w
      (0, normalize_logbase_paths
        (normalize_clientschemes_world (normalize_filenames_world w1 low) low) low)
  | _ => (1, w)

/-! ### Basic lemmas about the path primitives -/

theorem lowerStr_idem (s : List Char) :
    List.map lowerChar (List.map lowerChar s) = List.map lowerChar s := by
  induction s with
  | nil => rfl
  | cons c t ih => simp [lowerChar_idem, ih]

theorem map_lower_upsN (n : Nat) :
    List.map lowerChar (upsN n) = upsN n := by
  induction n with
  | zero => rfl
  | succ n ih => simp [upsN, ih]; decide

theorem upsN_succ_append (n : Nat) :
    upsN (n + 1) = upsN n ++ "../".data := by
  induction n with
  | zero => rfl
  | succ n ih =>
    calc upsN (n + 1 + 1) = '.' :: '.' :: '/' :: upsN (n + 1) := rfl
      _ = '.' :: '.' :: '/' :: (upsN n ++ "../".data) := by rw [ih]
      _ = upsN (n + 1) ++ "../".data := rfl

theorem leadingUps_zero_of_not_ups {s : List Char}
    (h : ∀ t, s = '.' :: '.' :: '/' :: t → False) : leadingUps s = 0 := by
  rw [leadingUps.eq_def]
  split
  · next t => exact absurd rfl (fun ht => h t ht)
  · rfl

theorem extract_eq_of_not_ups {s : List Char}
    (h : ∀ t, s = '.' :: '.' :: '/' :: t → False) :
    extract_path_after_parents s = s := by
  rw [extract_path_after_parents.eq_def]
  split
  · next t => exact absurd rfl (fun ht => h t ht)
  · rfl

theorem leadingUps_extract (s : List Char) :
    leadingUps (extract_path_after_parents s) = 0 := by
  induction s using extract_path_after_parents.induct with
  | case1 t ih =>
    show leadingUps (extract_path_after_parents t) = 0
    exact ih
  | case2 s h =>
    rw [extract_eq_of_not_ups h]
    exact leadingUps_zero_of_not_ups h

theorem leadingUps_upsN_append {s : List Char} (n : Nat)
    (h : leadingUps s = 0) : leadingUps (upsN n ++ s) = n := by
  induction n with
  | zero => exact h
  | succ n ih =>
    show leadingUps ('.' :: '.' :: '/' :: (upsN n ++ s)) = n + 1
    rw [show leadingUps ('.' :: '.' :: '/' :: (upsN n ++ s))
        = leadingUps (upsN n ++ s) + 1 from rfl, ih]

theorem leadingUps_map_lower (s : List Char) :
    leadingUps (List.map lowerChar s) = leadingUps s := by
  induction s using leadingUps.induct with
  | case1 t ih =>
    show leadingUps ('.' :: '.' :: '/' :: List.map lowerChar t)
        = leadingUps ('.' :: '.' :: '/' :: t)
    rw [show leadingUps ('.' :: '.' :: '/' :: List.map lowerChar t)
        = leadingUps (List.map lowerChar t) + 1 from rfl]
    rw [show leadingUps ('.' :: '.' :: '/' :: t) = leadingUps t + 1 from rfl, ih]
  | case2 s h =>
    have h1 : leadingUps s = 0 := leadingUps_zero_of_not_ups h
    have h2 : leadingUps (List.map lowerChar s) = 0 := by
      apply leadingUps_zero_of_not_ups
      intro t ht
      cases s with
      | nil => simp at ht
      | cons c1 t1 =>
        cases t1 with
        | nil => simp at ht
        | cons c2 t2 =>
          cases t2 with
          | nil => simp at ht
          | cons c3 t3 =>
            simp only [List.map, List.cons.injEq] at ht
            obtain ⟨e1, e2, e3, _⟩ := ht
            have d1 : c1 = '.' :=
              eq_of_lowerChar_eq_nonletter (by left; decide) e1
            have d2 : c2 = '.' :=
              eq_of_lowerChar_eq_nonletter (by left; decide) e2
            have d3 : c3 = '/' :=
              eq_of_lowerChar_eq_nonletter (by left; decide) e3
            exact h t3 (by rw [d1, d2, d3])
    rw [h1, h2]

/-! ### Claim C3 -/

/-- Claim C3: for a HUD rooted at folder name lowercasing to `myhud`, the
cfg echo-path normalizer rewrites the line
`echo "#base" "../../resource/ui/Foo.res"` to reference
`../../custom/myhud/resource/ui/foo.res`, and a second application leaves
the rewritten line unchanged because the `/custom/myhud/resource/` guard
suppresses a second insertion. -/
theorem claim3_echo_canonicalization :
    normalize_cfg_echo_paths
        "echo \"#base\" \"../../resource/ui/Foo.res\"".data "myhud".data
      = "echo \"#base\" \"../../custom/myhud/resource/ui/foo.res\"".data ∧
    normalize_cfg_echo_paths
        "echo \"#base\" \"../../custom/myhud/resource/ui/foo.res\"".data "myhud".data
      = "echo \"#base\" \"../../custom/myhud/resource/ui/foo.res\"".data := by
  constructor <;> decide

/-! ### Claim C2 -/

/-- Claim C2 counterexample: at depth 0 the `.res` cfg pass leaves
`#base "../mycfg.txt"` unchanged even though the quoted path contains
`cfg` and its `../` count (1) differs from depth + 2 (= 2): the rewrite is
guarded by the segment test `/cfg/`, not by the claim's condition that the
path contain `cfg`; so the result does not have 2 leading `../`. -/
theorem claim2_counterexample :
    normalize_cfg_paths_in_res "#base \"../mycfg.txt\"".data 0
        = "#base \"../mycfg.txt\"".data ∧
      containsStr "cfg".data "../mycfg.txt".data = true ∧
      countUps "../mycfg.txt".data ≠ 0 + 2 ∧
      leadingUps "../mycfg.txt".data ≠ 0 + 2 := by
  refine ⟨by decide, by decide, by decide, by decide⟩

/-- Claim C2 (amended): for a `.res` file at depth `d`, a matched `#base`
path is depth-rewritten only when it contains the case-sensitive segment
`/cfg/` after backslash conversion; in that case, whenever its total `../`
count differs from `d + 2` the result is the lowercased path stripped of
its leading `../` run and re-prefixed with exactly `d + 2` of them (so the
rewritten path has exactly `d + 2` leading `../` segments); the final path
is lowercased whether or not the count changed. -/
theorem claim2_cfg_depth_amended :
    (∀ (d : Nat) (p : List Char),
      containsStr "/cfg/".data (List.map slashChar p) = true →
      countUps (List.map slashChar p) ≠ d + 2 →
      normalize_cfg_path d p
          = List.map lowerChar
              (upsN (d + 2) ++ extract_path_after_parents (List.map slashChar p)) ∧
        leadingUps (normalize_cfg_path d p) = d + 2) ∧
    (∀ (d : Nat) (p : List Char),
      List.map lowerChar (normalize_cfg_path d p) = normalize_cfg_path d p) := by
  constructor
  · intro d p hcfg hne
    have heq : normalize_cfg_path d p
        = List.map lowerChar
            (upsN (d + 2) ++ extract_path_after_parents (List.map slashChar p)) := by
      unfold normalize_cfg_path
      dsimp only
      simp only [CFG_DEPTH_OFFSET]
      rw [if_pos hcfg, if_pos hne]
    refine ⟨heq, ?_⟩
    rw [heq, List.map_append, map_lower_upsN]
    exact leadingUps_upsN_append (d + 2)
      (by rw [leadingUps_map_lower]; exact leadingUps_extract _)
  · intro d p
    unfold normalize_cfg_path
    dsimp only
    split_ifs <;> exact lowerStr_idem _

/-! ### Claim C9 -/

/-- Claim C9: the `.res` cfg pass decides re-prefixing by the total number
of `../` occurrences anywhere in the path, not by the leading run: a
matched path containing `/cfg/` whose total count equals `d + 2` is only
lowercased, even when its leading run is shorter. -/
theorem claim9_total_count :
    ∀ (d : Nat) (p : List Char),
      containsStr "/cfg/".data (List.map slashChar p) = true →
      countUps (List.map slashChar p) = d + 2 →
      normalize_cfg_path d p = List.map lowerChar (List.map slashChar p) := by
  intro d p hcfg hcount
  unfold normalize_cfg_path
  dsimp only
  simp only [CFG_DEPTH_OFFSET]
  rw [if_pos hcfg, if_neg (by omega : ¬ countUps (List.map slashChar p) ≠ d + 2)]

/-! ### The inner `(\.\./)+<seg>/` substitution -/

theorem containsStr_cons_eq (pat : List Char) (c : Char) (t : List Char) :
    containsStr pat (c :: t) = (pat.isPrefixOf (c :: t) || containsStr pat t) := rfl

theorem containsStr_inner (pat : List Char) :
    ∀ (a b : List Char), containsStr pat (a ++ (pat ++ b)) = true := by
  intro a
  induction a with
  | nil =>
    intro b
    rw [List.nil_append]
    cases hp : pat with
    | nil => cases b <;> simp [containsStr]
    | cons q qs =>
      subst hp
      rw [List.cons_append, containsStr_cons_eq]
      have hpre : (q :: qs).isPrefixOf (q :: (qs ++ b)) = true :=
        List.isPrefixOf_iff_prefix.mpr ⟨b, rfl⟩
      rw [hpre, Bool.true_or]
  | cons x a ih =>
    intro b
    rw [List.cons_append, containsStr_cons_eq, ih b, Bool.or_true]

theorem upsN_length (n : Nat) : (upsN n).length = 3 * n := by
  induction n with
  | zero => rfl
  | succ n ih => simp only [upsN, List.length_cons, ih]; omega

theorem upsRun_decomp (s : List Char) :
    s = upsN (upsRun s).1 ++ (upsRun s).2 := by
  induction s using upsRun.induct with
  | case1 t ih =>
    show '.' :: '.' :: '/' :: t
        = upsN ((upsRun t).1 + 1) ++ (upsRun t).2
    rw [show upsN ((upsRun t).1 + 1)
        = '.' :: '.' :: '/' :: upsN (upsRun t).1 from rfl]
    simp only [List.cons_append]
    rw [← ih]
  | case2 s h =>
    rw [upsRun.eq_def]
    split
    · next t => exact absurd rfl (fun ht => h t ht)
    · rfl

theorem upsSegMatch_shrinking (seg hud : List Char) :
    Shrinking (upsSegMatch seg hud) := by
  intro s p h
  unfold upsSegMatch at h
  dsimp only at h
  split_ifs at h with h1 h2
  obtain ⟨em, rest⟩ := p
  simp only [Option.some.injEq, Prod.mk.injEq] at h
  obtain ⟨_, hr⟩ := h
  have hl : s.length = 3 * (upsRun s).1 + (upsRun s).2.length := by
    conv_lhs => rw [upsRun_decomp s]
    rw [List.length_append, upsN_length]
  have hdrop : (((upsRun s).2).drop (seg.length + 1)).length
      = (upsRun s).2.length - (seg.length + 1) := by simp
  show rest.length < s.length
  rw [← hr]
  omega

theorem upsSegSub_id (seg hud pat : List Char)
    (hpat : pat = "../".data ++ (seg ++ ['/'])) :
    ∀ s, containsStr pat s = false → upsSegSub seg hud s = s := by
  intro s
  induction s with
  | nil => intro _; rfl
  | cons c t ih =>
    intro h
    have h1 : pat.isPrefixOf (c :: t) = false := by
      rw [containsStr_cons_eq] at h
      cases hx : pat.isPrefixOf (c :: t) <;> simp [hx] at h ⊢
    have h2 : containsStr pat t = false := by
      rw [containsStr_cons_eq] at h
      cases hx : containsStr pat t <;> simp [hx] at h ⊢
    have hnone : upsSegMatch seg hud (c :: t) = none := by
      unfold upsSegMatch
      dsimp only
      split_ifs with hk hpre
      · rfl
      · exfalso
        have hd := upsRun_decomp (c :: t)
        obtain ⟨r, hr⟩ := List.isPrefixOf_iff_prefix.mp hpre
        cases hk2 : (upsRun (c :: t)).1 with
        | zero => exact hk hk2
        | succ k =>
          have hct : c :: t = upsN k ++ (pat ++ r) := by
            conv_lhs => rw [hd]
            rw [hk2, upsN_succ_append, hpat, ← hr]
            simp [List.append_assoc]
          rw [hct, containsStr_inner] at h
          simp at h
      · rfl
    unfold upsSegSub
    rw [runSub_nomatch hnone]
    have hrec := ih h2
    unfold upsSegSub at hrec
    rw [hrec]

/-! ### Claim C10 -/

/-- Claim C10: in the cfg echo-path normalizer, a matched path containing
`/resource/` (resp. `/scripts/`) without the canonical custom segment is
still left without insertion when no run of `../` immediately precedes
`resource/` (resp. `scripts/`) — equivalently, when the slash-converted
path has no `../resource/` and no `../scripts/` substring; the path then
only receives backslash conversion and lowercasing. -/
theorem claim10_no_leading_run :
    ∀ (hud p : List Char),
      containsStr "../resource/".data (List.map slashChar p) = false →
      containsStr "../scripts/".data (List.map slashChar p) = false →
      normalize_echo_path hud p = List.map lowerChar (List.map slashChar p) := by
  intro hud p h1 h2
  have e1 : "../".data ++ ("resource".data ++ ['/']) = "../resource/".data := by decide
  have e2 : "../".data ++ ("scripts".data ++ ['/']) = "../scripts/".data := by decide
  unfold normalize_echo_path
  dsimp only
  have s1 := upsSegSub_id "resource".data hud "../resource/".data (by rw [e1])
    (List.map slashChar p) h1
  have s2 := upsSegSub_id "scripts".data hud "../scripts/".data (by rw [e2])
    (List.map slashChar p) h2
  split_ifs <;> simp [s1, s2]

/-- Claim C10 witness: the path `sub/resource/x.res` contains `/resource/`
and lacks the canonical segment, but has no `../` run before `resource/`;
the normalizer only lowercases it (here: leaves it unchanged). -/
theorem claim10_no_leading_run_witness :
    containsStr "/resource/".data "sub/resource/x.res".data = true ∧
      containsStr (canonSeg "myhud".data "resource".data)
        "sub/resource/x.res".data = false ∧
      normalize_echo_path "myhud".data "sub/resource/x.res".data
        = List.map lowerChar (List.map slashChar "sub/resource/x.res".data) := by
  exact ⟨by decide, by decide,
    claim10_no_leading_run "myhud".data "sub/resource/x.res".data
      (by decide) (by decide)⟩

/-- Claim C2 witness: at depth 1, the matched path `..\cfg\x.txt` (with
backslashes, one `../`, containing `/cfg/` after conversion) is rewritten
to three leading `../` segments; and a matched path is always lowercased. -/
theorem claim2_cfg_depth_witness :
    (containsStr "/cfg/".data (List.map slashChar "..\\cfg\\x.txt".data) = true ∧
      countUps (List.map slashChar "..\\cfg\\x.txt".data) ≠ 1 + 2 ∧
      normalize_cfg_path 1 "..\\cfg\\x.txt".data
        = List.map lowerChar
            (upsN (1 + 2) ++
              extract_path_after_parents (List.map slashChar "..\\cfg\\x.txt".data)) ∧
      leadingUps (normalize_cfg_path 1 "..\\cfg\\x.txt".data) = 1 + 2) ∧
    List.map lowerChar (normalize_cfg_path 0 "../CFG/q.txt".data)
      = normalize_cfg_path 0 "../CFG/q.txt".data := by
  refine ⟨⟨by decide, by decide, ?_, ?_⟩, claim2_cfg_depth_amended.2 0 _⟩
  · exact (claim2_cfg_depth_amended.1 1 _ (by decide) (by decide)).1
  · exact (claim2_cfg_depth_amended.1 1 _ (by decide) (by decide)).2

/-- Claim C9 witness: at depth 0 the path `../a/../cfg/x.txt` has total
`../` count 2 = 0 + 2 but only one leading `../`; it is left unrewritten
(only lowercased, here unchanged), also at the content level. -/
theorem claim9_total_count_witness :
    normalize_cfg_path 0 "../a/../cfg/x.txt".data
        = List.map lowerChar (List.map slashChar "../a/../cfg/x.txt".data) ∧
      countUps "../a/../cfg/x.txt".data = 0 + 2 ∧
      leadingUps "../a/../cfg/x.txt".data = 1 ∧
      normalize_cfg_paths_in_res "#base \"../a/../cfg/x.txt\"".data 0
        = "#base \"../a/../cfg/x.txt\"".data := by
  exact ⟨claim9_total_count 0 _ (by decide) (by decide), by decide, by decide, by decide⟩

/-! ### Claim C6: the font value rewrite -/

theorem wsSplit_decomp (s : List Char) : s = (wsSplit s).1 ++ (wsSplit s).2 := by
  induction s with
  | nil => rfl
  | cons c t ih =>
    by_cases hc : isSpaceChar c = true
    · simp only [wsSplit, hc, if_true]
      exact congrArg (c :: ·) ih
    · simp only [wsSplit, hc, if_false]
      simp

theorem wsSplit_append {ws : List Char} (b : Char) (r : List Char)
    (hws : ∀ c ∈ ws, isSpaceChar c = true) (hb : isSpaceChar b = false) :
    wsSplit (ws ++ b :: r) = (ws, b :: r) := by
  induction ws with
  | nil => simp [wsSplit, hb]
  | cons c t ih =>
    have hc : isSpaceChar c = true := hws c (by simp)
    simp only [List.cons_append, wsSplit, hc, if_true, List.append_eq]
    rw [ih (fun x hx => hws x (by simp [hx]))]

theorem takeValue_decomp {s : List Char} {p : List Char × List Char}
    (h : takeValue s = some p) : s = p.1 ++ '"' :: p.2 := by
  induction s generalizing p with
  | nil => simp [takeValue] at h
  | cons c t ih =>
    by_cases hq : c = '"'
    · subst hq
      have he : takeValue ('"' :: t) = some ([], t) := rfl
      rw [he, Option.some.injEq] at h
      rw [← h]
      rfl
    · by_cases hn : c = '\n'
      · simp [takeValue, hq, hn] at h
      · simp only [takeValue, hq, hn, if_false, Option.map_eq_some'] at h
        obtain ⟨q, hq1, hq2⟩ := h
        rw [← hq2]
        simpa using congrArg (c :: ·) (ih hq1)

theorem takeValue_append {v : List Char} (post : List Char)
    (hv : ∀ c ∈ v, c ≠ '"' ∧ c ≠ '\n') :
    takeValue (v ++ '"' :: post) = some (v, post) := by
  induction v with
  | nil => simp [takeValue]
  | cons c t ih =>
    obtain ⟨h1, h2⟩ := hv c (by simp)
    simp only [List.cons_append, takeValue, h1, h2, if_false, Option.map_eq_some']
    exact ⟨(t, post), ih (fun x hx => hv x (by simp [hx])), rfl⟩

theorem fontMatch_shrinking : Shrinking fontMatch := by
  intro s p h
  unfold fontMatch at h
  split at h
  · next rest =>
    dsimp only at h
    split_ifs at h
    split at h
    · next rest2 heq2 =>
      split at h
      · next v heq3 =>
        simp only [Option.some.injEq] at h
        have hd1 := wsSplit_decomp rest
        have hd2 := takeValue_decomp heq3
        have hlen : rest.length
            = (wsSplit rest).1.length + (wsSplit rest).2.length := by
          conv_lhs => rw [hd1]
          simp
        have hlen2 : (wsSplit rest).2.length = rest2.length + 1 := by
          rw [heq2]; rfl
        have hlen3 : rest2.length = v.1.length + v.2.length + 1 := by
          conv_lhs => rw [hd2]
          simp only [List.length_append, List.length_cons]
          omega
        have : p.2 = v.2 := by rw [← h]
        rw [this]
        simp only [List.length_cons]
        omega
      · simp at h
    · simp at h
  · simp at h

/-- Claim C6: font normalization rewrites exactly the quoted value of each
`"font" "<value>"` occurrence (key matched case-sensitively), replacing
backslashes by forward slashes and lowercasing the value, and leaves every
character outside the matched occurrences unchanged: where no occurrence
starts, the character is copied verbatim, and an occurrence
`"font"<ws>"<v>"` is rewritten to `"font"<ws>"<lowered v>"` with the scan
continuing after it. -/
theorem claim6_font_value_rewrite :
    (∀ (c : Char) (t : List Char), fontMatch (c :: t) = none →
        clientschemeFontRewrite (c :: t) = c :: clientschemeFontRewrite t) ∧
    (∀ ws v post, ws ≠ [] → (∀ c ∈ ws, isSpaceChar c = true) →
        (∀ c ∈ v, c ≠ '"' ∧ c ≠ '\n') →
        clientschemeFontRewrite ("\"font\"".data ++ ws ++ '"' :: v ++ '"' :: post)
          = "\"font\"".data ++ ws ++ '"' :: List.map slashLower v ++ '"' ::
              clientschemeFontRewrite post) := by
  constructor
  · intro c t h
    exact runSub_nomatch h
  · intro ws v post hne hws hv
    have hm : fontMatch ('"' :: 'f' :: 'o' :: 'n' :: 't' :: '"' ::
          (ws ++ '"' :: v ++ '"' :: post))
        = some ('"' :: 'f' :: 'o' :: 'n' :: 't' :: '"' :: ws ++
            '"' :: List.map slashLower v ++ ['"'], post) := by
      simp only [fontMatch]
      simp only [List.cons_append, List.append_assoc]
      rw [wsSplit_append '"' (v ++ '"' :: post) hws (by decide)]
      have hemp : ws.isEmpty = false := by
        cases ws
        · exact absurd rfl hne
        · rfl
      rw [hemp]
      simp only [Bool.false_eq_true, if_false]
      rw [takeValue_append post hv]
    have hstep := runSub_match fontMatch_shrinking hm
    have hform : "\"font\"".data ++ ws ++ '"' :: v ++ '"' :: post
        = '"' :: 'f' :: 'o' :: 'n' :: 't' :: '"' :: (ws ++ '"' :: v ++ '"' :: post) := rfl
    rw [hform]
    unfold clientschemeFontRewrite
    rw [hstep]
    simp [List.append_assoc]

/-- Claim C6 witness: the specification's example — the font value
`Resource\Fonts\Tf2Build.ttf` becomes `resource/fonts/tf2build.ttf` — and
a character at which no occurrence starts is copied verbatim. -/
theorem claim6_font_value_rewrite_witness :
    clientschemeFontRewrite "\"font\" \"Resource\\Fonts\\Tf2Build.ttf\"".data
        = "\"font\" \"resource/fonts/tf2build.ttf\"".data ∧
      clientschemeFontRewrite ('x' :: "\"font\" \"A\"".data)
        = 'x' :: clientschemeFontRewrite "\"font\" \"A\"".data := by
  constructor
  · have h := claim6_font_value_rewrite.2 [' ']
      "Resource\\Fonts\\Tf2Build.ttf".data [] (by decide) (by decide) (by decide)
    have e1 : "\"font\" \"Resource\\Fonts\\Tf2Build.ttf\"".data
        = "\"font\"".data ++ [' '] ++
            '"' :: "Resource\\Fonts\\Tf2Build.ttf".data ++ '"' :: [] := by decide
    have e2 : "\"font\" \"resource/fonts/tf2build.ttf\"".data
        = "\"font\"".data ++ [' '] ++
            '"' :: List.map slashLower "Resource\\Fonts\\Tf2Build.ttf".data ++
              '"' :: clientschemeFontRewrite [] := by decide
    rw [e1, e2]
    exact h
  · exact claim6_font_value_rewrite.1 'x' "\"font\" \"A\"".data (by decide)

/-! ### Claim C8: usage errors in `main` -/

/-- Claim C8: every usage error — no directory argument, a path that does
not exist, or a path that is not a directory — makes `main` exit with a
non-zero status leaving the filesystem untouched (no rename and no write);
when the argument is an existing directory `main` exits zero. -/
theorem claim8_usage_errors :
    (∀ w : World, mainModel [] w = (1, w)) ∧
    (∀ (w : World) (a : List Char), mainModel [a] w = (1, w)) ∧
    (∀ (w : World) (a name : List Char) (rest : List (List Char)),
      w.any (fun e => decide (e.1 = [name])) = false →
      mainModel (a :: name :: rest) w = (1, w)) ∧
    (∀ (w : World) (a name : List Char) (rest : List (List Char)),
      w.any (fun e => decide (e.1 = [name]) && e.2.isNone) = false →
      mainModel (a :: name :: rest) w = (1, w)) ∧
    (∀ (w : World) (a name : List Char) (rest : List (List Char)),
      w.any (fun e => decide (e.1 = [name]) && e.2.isNone) = true →
      (mainModel (a :: name :: rest) w).1 = 0) := by
  refine ⟨fun w => rfl, fun w a => rfl, ?_, ?_, ?_⟩
  · intro w a name rest h
    simp [mainModel, h]
  · intro w a name rest h
    by_cases hex : w.any (fun e => decide (e.1 = [name])) = true
    · simp [mainModel, hex, h]
    · simp [mainModel, hex]
  · intro w a name rest h
    have hex : w.any (fun e => decide (e.1 = [name])) = true := by
      rw [List.any_eq_true] at h ⊢
      obtain ⟨e, he, hp⟩ := h
      rw [Bool.and_eq_true] at hp
      exact ⟨e, he, hp.1⟩
    simp [mainModel, hex, h]

/-- Claim C8 witness: concrete worlds exercising each branch — no
argument, one argument only, a missing path, a path that is a file, and a
successful run on an existing directory. -/
theorem claim8_usage_errors_witness :
    mainModel [] [([ "hud".data ], none)] = (1, [([ "hud".data ], none)]) ∧
      mainModel ["prog".data] [([ "hud".data ], none)]
        = (1, [([ "hud".data ], none)]) ∧
      mainModel ["prog".data, "nope".data] [([ "hud".data ], none)]
        = (1, [([ "hud".data ], none)]) ∧
      mainModel ["prog".data, "f.txt".data] [([ "f.txt".data ], some [])]
        = (1, [([ "f.txt".data ], some [])]) ∧
      (mainModel ["prog".data, "hud".data] [([ "hud".data ], none)]).1 = 0 := by
  refine ⟨claim8_usage_errors.1 _, claim8_usage_errors.2.1 _ _, ?_, ?_, ?_⟩
  · exact claim8_usage_errors.2.2.1 _ _ _ _ (by decide)
  · exact claim8_usage_errors.2.2.2.1 _ _ _ _ (by decide)
  · exact claim8_usage_errors.2.2.2.2 _ _ _ _ (by decide)

/-! ### Claim C7: the clientscheme include walk -/

theorem updateFS_paths (fs : CFS) (p : FsPath) (c : List Char) :
    (updateFS fs p c).map Prod.fst = fs.map Prod.fst := by
  induction fs with
  | nil => rfl
  | cons e t ih =>
    by_cases he : e.1 = p
    · simp [updateFS, he] at ih ⊢
      exact ih
    · simp [updateFS, he] at ih ⊢
      exact ih

theorem lookupFS_mem {fs : CFS} {p : FsPath} {c : List Char}
    (h : lookupFS fs p = some c) : p ∈ fs.map Prod.fst := by
  unfold lookupFS at h
  rw [Option.map_eq_some'] at h
  obtain ⟨e, he, _⟩ := h
  have hm := List.mem_of_find?_eq_some he
  have hp := List.find?_some he
  simp at hp
  subst hp
  exact List.mem_map_of_mem Prod.fst hm

/-- One-step unfolding of `process_clientscheme` at positive fuel. -/
theorem PC_succ (fuel : Nat) (fs : CFS) (file : FsPath) (vis : List FsPath) :
    process_clientscheme (fuel + 1) fs file vis =
      if resolveSegs file ∈ vis then (fs, vis, 0, [])
      else
        match lookupFS fs (resolveSegs file) with
        | none => (fs, vis, 0, [])
        | some content =>
          let c2 := clientschemeFontRewrite content
          let changed := c2 ≠ content
          let fs1 := if changed then updateFS fs (resolveSegs file) c2 else fs
          (extract_base_list c2).foldl
            (fun acc b =>
              let r := process_clientscheme fuel acc.1
                ((resolveSegs file).dropLast ++ splitSlash b) acc.2.1
              (r.1, r.2.1, acc.2.2.1 + r.2.2.1, acc.2.2.2 ++ r.2.2.2))
            (fs1, resolveSegs file :: vis, if changed then 1 else 0,
              [resolveSegs file]) := rfl

/-- Structure of the clientscheme walk: file paths are preserved, the
returned visited set is the reversed trace on top of the input visited set,
the trace has no duplicates, and every traced file was unvisited and
exists. -/
theorem PC_structure :
    ∀ (fuel : Nat) (fs : CFS) (file : FsPath) (vis : List FsPath),
      ((process_clientscheme fuel fs file vis).1.map Prod.fst = fs.map Prod.fst) ∧
      ((process_clientscheme fuel fs file vis).2.1
          = (process_clientscheme fuel fs file vis).2.2.2.reverse ++ vis) ∧
      (process_clientscheme fuel fs file vis).2.2.2.Nodup ∧
      (∀ t ∈ (process_clientscheme fuel fs file vis).2.2.2,
        t ∉ vis ∧ t ∈ fs.map Prod.fst) := by
  intro fuel
  induction fuel with
  | zero =>
    intro fs file vis
    exact ⟨rfl, rfl, List.nodup_nil, by simp [process_clientscheme]⟩
  | succ fuel ih =>
    intro fs file vis
    rw [PC_succ]
    by_cases hv : resolveSegs file ∈ vis
    · rw [if_pos hv]
      exact ⟨rfl, rfl, List.nodup_nil, by simp⟩
    · rw [if_neg hv]
      cases hl : lookupFS fs (resolveSegs file) with
      | none => exact ⟨rfl, rfl, List.nodup_nil, by simp⟩
      | some content =>
        dsimp only
        have hfmem : resolveSegs file ∈ fs.map Prod.fst := lookupFS_mem hl
        have Hfold :
            ∀ (bs : List (List Char)) (acc : CFS × List FsPath × Nat × List FsPath),
              (acc.1.map Prod.fst = fs.map Prod.fst) →
              (acc.2.1 = acc.2.2.2.reverse ++ vis) →
              acc.2.2.2.Nodup →
              (∀ t ∈ acc.2.2.2, t ∉ vis ∧ t ∈ fs.map Prod.fst) →
              ((bs.foldl
                  (fun acc b =>
                    let r := process_clientscheme fuel acc.1
                      ((resolveSegs file).dropLast ++ splitSlash b) acc.2.1
                    (r.1, r.2.1, acc.2.2.1 + r.2.2.1, acc.2.2.2 ++ r.2.2.2))
                  acc).1.map Prod.fst = fs.map Prod.fst) ∧
              ((bs.foldl
                  (fun acc b =>
                    let r := process_clientscheme fuel acc.1
                      ((resolveSegs file).dropLast ++ splitSlash b) acc.2.1
                    (r.1, r.2.1, acc.2.2.1 + r.2.2.1, acc.2.2.2 ++ r.2.2.2))
                  acc).2.1
                = (bs.foldl
                    (fun acc b =>
                      let r := process_clientscheme fuel acc.1
                        ((resolveSegs file).dropLast ++ splitSlash b) acc.2.1
                      (r.1, r.2.1, acc.2.2.1 + r.2.2.1, acc.2.2.2 ++ r.2.2.2))
                    acc).2.2.2.reverse ++ vis) ∧
              (bs.foldl
                  (fun acc b =>
                    let r := process_clientscheme fuel acc.1
                      ((resolveSegs file).dropLast ++ splitSlash b) acc.2.1
                    (r.1, r.2.1, acc.2.2.1 + r.2.2.1, acc.2.2.2 ++ r.2.2.2))
                  acc).2.2.2.Nodup ∧
              (∀ t ∈ (bs.foldl
                  (fun acc b =>
                    let r := process_clientscheme fuel acc.1
                      ((resolveSegs file).dropLast ++ splitSlash b) acc.2.1
                    (r.1, r.2.1, acc.2.2.1 + r.2.2.1, acc.2.2.2 ++ r.2.2.2))
                  acc).2.2.2, t ∉ vis ∧ t ∈ fs.map Prod.fst) := by
          intro bs
          induction bs with
          | nil =>
            intro acc h1 h2 h3 h4
            exact ⟨h1, h2, h3, h4⟩
          | cons b bs ihb =>
            intro acc h1 h2 h3 h4
            rw [List.foldl_cons]
            obtain ⟨g1, g2, g3, g4⟩ :=
              ih acc.1 ((resolveSegs file).dropLast ++ splitSlash b) acc.2.1
            apply ihb
            · dsimp only
              rw [g1, h1]
            · dsimp only
              rw [g2, h2]
              simp [List.append_assoc]
            · dsimp only
              rw [List.nodup_append]
              refine ⟨h3, g3, ?_⟩
              intro t ht htr
              have h5 := (g4 t htr).1
              rw [h2] at h5
              simp at h5
              exact h5.1 ht
            · dsimp only
              intro t ht
              rw [List.mem_append] at ht
              cases ht with
              | inl h5 => exact h4 t h5
              | inr h5 =>
                obtain ⟨h6, h7⟩ := g4 t h5
                rw [h1] at h7
                rw [h2] at h6
                simp at h6
                exact ⟨fun hvt => h6.2 hvt, h7⟩
        apply Hfold
        · by_cases hc : clientschemeFontRewrite content ≠ content <;>
            simp [hc, updateFS_paths]
        · simp
        · exact List.nodup_singleton _
        · intro t ht
          simp at ht
          subst ht
          exact ⟨hv, hfmem⟩

theorem filter_length_mono {α : Type} (p q : α → Bool)
    (h : ∀ a, p a = true → q a = true) :
    ∀ l : List α, (l.filter p).length ≤ (l.filter q).length := by
  intro l
  induction l with
  | nil => exact Nat.le_refl _
  | cons a t ih =>
    by_cases hp : p a = true
    · rw [List.filter_cons_of_pos hp, List.filter_cons_of_pos (h a hp)]
      simpa using ih
    · rw [List.filter_cons_of_neg (by simpa using hp)]
      by_cases hq : q a = true
      · rw [List.filter_cons_of_pos hq]
        simp only [List.length_cons]
        omega
      · rw [List.filter_cons_of_neg (by simpa using hq)]
        exact ih

theorem filter_length_lt {α : Type} (p q : α → Bool)
    (hpq : ∀ a, p a = true → q a = true) :
    ∀ (l : List α) (a : α), a ∈ l → q a = true → p a = false →
      (l.filter p).length < (l.filter q).length := by
  intro l
  induction l with
  | nil => intro a ha; simp at ha
  | cons b t ih =>
    intro a ha hqa hpa
    rw [List.mem_cons] at ha
    cases ha with
    | inl hab =>
      subst hab
      rw [List.filter_cons_of_neg (by simp [hpa]), List.filter_cons_of_pos hqa]
      simp only [List.length_cons]
      exact Nat.lt_succ_of_le (filter_length_mono p q hpq t)
    | inr hat =>
      by_cases hp : p b = true
      · rw [List.filter_cons_of_pos hp, List.filter_cons_of_pos (hpq b hp)]
        simpa using ih a hat hqa hpa
      · rw [List.filter_cons_of_neg (by simpa using hp)]
        by_cases hq : q b = true
        · rw [List.filter_cons_of_pos hq]
          have := ih a hat hqa hpa
          simp only [List.length_cons]
          omega
        · rw [List.filter_cons_of_neg (by simpa using hq)]
          exact ih a hat hqa hpa

theorem unvisited_paths_congr {fs1 fs : CFS} (vis : List FsPath)
    (h : fs1.map Prod.fst = fs.map Prod.fst) :
    unvisitedCount fs1 vis = unvisitedCount fs vis := by
  unfold unvisitedCount
  rw [h]

theorem unvisited_mono {fs : CFS} {vis vis' : List FsPath}
    (h : ∀ x ∈ vis, x ∈ vis') :
    unvisitedCount fs vis' ≤ unvisitedCount fs vis := by
  apply filter_length_mono
  intro a ha
  simp only [decide_eq_true_eq] at ha ⊢
  intro hm
  exact ha (h a hm)

theorem unvisited_cons_lt {fs : CFS} {vis : List FsPath} {f : FsPath}
    (hf : f ∈ fs.map Prod.fst) (hv : f ∉ vis) :
    unvisitedCount fs (f :: vis) < unvisitedCount fs vis := by
  apply filter_length_lt
  · intro a ha
    simp only [decide_eq_true_eq] at ha ⊢
    intro hm
    exact ha (List.mem_cons_of_mem f hm)
  · exact hf
  · simpa using hv
  · simp

/-- Fuel irrelevance for the clientscheme walk: any two fuel values above
the number of unvisited files give the same result — the recursion
terminates on every include graph, cyclic ones included. -/
theorem PC_fuel_irrelevance :
    ∀ (n fuel1 fuel2 : Nat) (fs : CFS) (file : FsPath) (vis : List FsPath),
      unvisitedCount fs vis ≤ n → n < fuel1 → n < fuel2 →
      process_clientscheme fuel1 fs file vis
        = process_clientscheme fuel2 fs file vis := by
  intro n
  induction n using Nat.strong_induction_on with
  | _ n ihn =>
    intro fuel1 fuel2 fs file vis hu h1 h2
    obtain ⟨fa, rfl⟩ : ∃ fa, fuel1 = fa + 1 := ⟨fuel1 - 1, by omega⟩
    obtain ⟨fb, rfl⟩ : ∃ fb, fuel2 = fb + 1 := ⟨fuel2 - 1, by omega⟩
    rw [PC_succ, PC_succ]
    by_cases hv : resolveSegs file ∈ vis
    · rw [if_pos hv, if_pos hv]
    · rw [if_neg hv, if_neg hv]
      cases hl : lookupFS fs (resolveSegs file) with
      | none => rfl
      | some content =>
        dsimp only
        have hfmem : resolveSegs file ∈ fs.map Prod.fst := lookupFS_mem hl
        have hdec : unvisitedCount fs (resolveSegs file :: vis) < unvisitedCount fs vis :=
          unvisited_cons_lt hfmem hv
        have Hfold :
            ∀ (bs : List (List Char)) (acc : CFS × List FsPath × Nat × List FsPath),
              acc.1.map Prod.fst = fs.map Prod.fst →
              (∀ x ∈ resolveSegs file :: vis, x ∈ acc.2.1) →
              bs.foldl
                  (fun acc y =>
                    let r := process_clientscheme fa acc.1
                      ((resolveSegs file).dropLast ++ splitSlash y) acc.2.1
                    (r.1, r.2.1, acc.2.2.1 + r.2.2.1, acc.2.2.2 ++ r.2.2.2))
                  acc
                = bs.foldl
                    (fun acc y =>
                      let r := process_clientscheme fb acc.1
                        ((resolveSegs file).dropLast ++ splitSlash y) acc.2.1
                      (r.1, r.2.1, acc.2.2.1 + r.2.2.1, acc.2.2.2 ++ r.2.2.2))
                    acc := by
          intro bs
          induction bs with
          | nil => intro acc _ _; rfl
          | cons x bs ihb =>
            intro acc hp hsub
            rw [List.foldl_cons, List.foldl_cons]
            have hcall :
                process_clientscheme fa acc.1
                    ((resolveSegs file).dropLast ++ splitSlash x) acc.2.1
                  = process_clientscheme fb acc.1
                      ((resolveSegs file).dropLast ++ splitSlash x) acc.2.1 := by
              apply ihn (n - 1) (by omega)
              · calc unvisitedCount acc.1 acc.2.1
                    = unvisitedCount fs acc.2.1 := unvisited_paths_congr _ hp
                  _ ≤ unvisitedCount fs (resolveSegs file :: vis) :=
                      unvisited_mono hsub
                  _ ≤ n - 1 := by omega
              · omega
              · omega
            rw [hcall]
            apply ihb
            · dsimp only
              rw [(PC_structure fb acc.1 _ acc.2.1).1, hp]
            · dsimp only
              intro z hz
              rw [(PC_structure fb acc.1 _ acc.2.1).2.1]
              exact List.mem_append_right _ (hsub z hz)
        apply Hfold
        · by_cases hc : clientschemeFontRewrite content ≠ content <;>
            simp [hc, updateFS_paths]
        · intro x hx
          exact hx

/-- Skipping a missing include: when the resolved path is not a file in
the filesystem, the walk returns everything unchanged. -/
theorem PC_missing (fuel : Nat) (fs : CFS) (file : FsPath) (vis : List FsPath)
    (h : lookupFS fs (resolveSegs file) = none) :
    process_clientscheme (fuel + 1) fs file vis = (fs, vis, 0, []) := by
  rw [PC_succ]
  by_cases hv : resolveSegs file ∈ vis
  · rw [if_pos hv]
  · rw [if_neg hv, h]

/-- Claim C7: the recursive clientscheme walk terminates for every include
graph, including cyclic ones — any two fuel values above the number of
unvisited files give the same result; each file (identified by its resolved
path) is font-normalized at most once per run (the trace of normalized
files has no duplicates, all fresh and existing); and a `#base` path that
resolves to a missing file is skipped without effect. -/
theorem claim7_cycle_safety :
    (∀ (fuel1 fuel2 : Nat) (fs : CFS) (file : FsPath) (vis : List FsPath),
      unvisitedCount fs vis < fuel1 → unvisitedCount fs vis < fuel2 →
      process_clientscheme fuel1 fs file vis
        = process_clientscheme fuel2 fs file vis) ∧
    (∀ (fuel : Nat) (fs : CFS) (file : FsPath) (vis : List FsPath),
      (process_clientscheme fuel fs file vis).2.2.2.Nodup ∧
      (∀ t ∈ (process_clientscheme fuel fs file vis).2.2.2,
        t ∉ vis ∧ t ∈ fs.map Prod.fst)) ∧
    (∀ (fuel : Nat) (fs : CFS) (file : FsPath) (vis : List FsPath),
      lookupFS fs (resolveSegs file) = none →
      process_clientscheme (fuel + 1) fs file vis = (fs, vis, 0, [])) := by
  refine ⟨?_, ?_, PC_missing⟩
  · intro f1 f2 fs file vis h1 h2
    exact PC_fuel_irrelevance (unvisitedCount fs vis) f1 f2 fs file vis
      (Nat.le_refl _) h1 h2
  · intro fuel fs file vis
    exact ⟨(PC_structure fuel fs file vis).2.2.1,
      (PC_structure fuel fs file vis).2.2.2⟩

/-- A two-file clientscheme filesystem whose `#base` includes form a cycle:
`a` includes `b` and `b` includes `a`. -/
def cfsCycleExample : CFS :=
  [([ "a".data ], "#base \"b\"".data), ([ "b".data ], "#base \"a\"".data)]

/-- Claim C7 witness: on the cyclic two-file example, fuel 3 and fuel 5
agree (the walk has stabilized), the trace is duplicate-free, and a walk
started at a missing file returns everything unchanged. -/
theorem claim7_cycle_safety_witness :
    process_clientscheme 3 cfsCycleExample ["a".data] []
        = process_clientscheme 5 cfsCycleExample ["a".data] [] ∧
      (process_clientscheme 3 cfsCycleExample ["a".data] []).2.2.2.Nodup ∧
      process_clientscheme 1 cfsCycleExample ["zz".data] []
        = (cfsCycleExample, [], 0, []) := by
  refine ⟨?_, ?_, ?_⟩
  · exact claim7_cycle_safety.1 3 5 cfsCycleExample ["a".data] []
      (by decide) (by decide)
  · exact (claim7_cycle_safety.2.1 3 cfsCycleExample ["a".data] []).1
  · exact claim7_cycle_safety.2.2 0 cfsCycleExample ["zz".data] [] (by decide)

/-! ### Claim C5: the renaming loop -/

theorem lastSeg_decomp {item : FsPath} (h : item ≠ []) :
    item.dropLast ++ [lastSeg item] = item := by
  have h2 := List.dropLast_append_getLast h
  unfold lastSeg
  rw [List.getLastD_eq_getLast?, List.getLast?_eq_getLast _ h]
  exact h2

theorem renameTarget_length {item : FsPath} (h : item ≠ []) :
    (renameTarget item).length = item.length := by
  unfold renameTarget
  rw [List.length_append, List.length_dropLast]
  have : 0 < item.length := List.length_pos.mpr h
  simp
  omega

theorem lastSeg_renameTarget (item : FsPath) :
    lastSeg (renameTarget item) = lowSeg (lastSeg item) := by
  unfold renameTarget lastSeg
  exact List.getLastD_concat _ _ _

theorem dropLast_renameTarget (item : FsPath) :
    (renameTarget item).dropLast = item.dropLast := by
  unfold renameTarget
  exact List.dropLast_concat

theorem renameTarget_ne {item : FsPath} (_h : item ≠ [])
    (hup : lastSeg item ≠ lowSeg (lastSeg item)) : renameTarget item ≠ item := by
  intro he
  apply hup
  conv_lhs => rw [← he]
  exact lastSeg_renameTarget item

theorem isPrefixOf_self (l : FsPath) : l.isPrefixOf l = true :=
  List.isPrefixOf_iff_prefix.mpr (List.prefix_refl l)

theorem renamePath_self (item new : FsPath) : renamePath item new item = new := by
  unfold renamePath
  rw [if_pos (isPrefixOf_self item)]
  simp

theorem renamePath_extends {old p : FsPath} (new : FsPath)
    (h : old.isPrefixOf p = true) :
    renamePath old new p = new ++ p.drop old.length := by
  unfold renamePath
  rw [if_pos h]

theorem renamePath_unrelated {old p : FsPath} (new : FsPath)
    (h : ¬ old.isPrefixOf p = true) : renamePath old new p = p := by
  unfold renamePath
  rw [if_neg h]

theorem fnStep_skip_lower {fs : List FsPath} {item : FsPath}
    (h : lastSeg item = lowSeg (lastSeg item)) : fnStep fs item = fs := by
  unfold fnStep
  rw [if_neg]
  intro hc
  exact hc.1 h

theorem fnStep_skip_exists {fs : List FsPath} {item : FsPath}
    (h : renameTarget item ∈ fs) : fnStep fs item = fs := by
  unfold fnStep
  rw [if_neg]
  intro hc
  exact hc.2 h

theorem fnStep_renames {fs : List FsPath} {item : FsPath}
    (h1 : lastSeg item ≠ lowSeg (lastSeg item)) (h2 : renameTarget item ∉ fs) :
    fnStep fs item = fs.map (renamePath item (renameTarget item)) := by
  unfold fnStep
  rw [if_pos ⟨h1, h2⟩]

theorem sortByDepth_perm (fs : List FsPath) : (sortByDepth fs).Perm fs :=
  List.mergeSort_perm fs _

theorem sortByDepth_sorted (fs : List FsPath) :
    List.Pairwise (fun a b : FsPath => b.length ≤ a.length) (sortByDepth fs) := by
  have h := @List.sorted_mergeSort FsPath
    (fun a b : FsPath => decide (b.length ≤ a.length))
    (by intro a b c hab hbc; simp at hab hbc ⊢; omega)
    (by intro a b; simp; omega) fs
  exact h.imp (fun hab => by simpa using hab)

/-- Claim C5: the renaming stage enumerates all entries sorted by path
segment count descending (a permutation of the entries, deepest first) and
processes them one by one; an entry whose basename is already lowercase is
skipped; an entry whose lowercase target exists is skipped (the filesystem
is unchanged, the entry keeps its name); otherwise the entry is renamed to
the lowercase basename in the same parent (the target appears, the old
path disappears). -/
theorem claim5_rename_loop :
    (∀ fs : List FsPath, (sortByDepth fs).Perm fs ∧
      List.Pairwise (fun a b : FsPath => b.length ≤ a.length) (sortByDepth fs)) ∧
    (∀ fs : List FsPath, normalize_filenames fs = (sortByDepth fs).foldl fnStep fs) ∧
    (∀ (fs : List FsPath) (item : FsPath),
      lastSeg item = lowSeg (lastSeg item) → fnStep fs item = fs) ∧
    (∀ (fs : List FsPath) (item : FsPath),
      renameTarget item ∈ fs → fnStep fs item = fs) ∧
    (∀ (fs : List FsPath) (item : FsPath), item ≠ [] → item ∈ fs →
      lastSeg item ≠ lowSeg (lastSeg item) → renameTarget item ∉ fs →
      renameTarget item ∈ fnStep fs item ∧ item ∉ fnStep fs item) := by
  refine ⟨fun fs => ⟨sortByDepth_perm fs, sortByDepth_sorted fs⟩,
    fun fs => rfl,
    fun fs item h => fnStep_skip_lower h,
    fun fs item h => fnStep_skip_exists h, ?_⟩
  intro fs item hne hmem hup htgt
  rw [fnStep_renames hup htgt]
  constructor
  · exact List.mem_map.mpr ⟨item, hmem, renamePath_self item (renameTarget item)⟩
  · intro hin
    obtain ⟨x, hx, hxe⟩ := List.mem_map.mp hin
    by_cases hp : item.isPrefixOf x = true
    · obtain ⟨r, hr⟩ := List.isPrefixOf_iff_prefix.mp hp
      rw [renamePath_extends _ hp] at hxe
      have hdrop : x.drop item.length = r := by
        rw [← hr]
        simp
      rw [hdrop] at hxe
      cases r with
      | nil =>
        rw [List.append_nil] at hxe
        exact renameTarget_ne hne hup hxe
      | cons r0 rs =>
        have hlen := congrArg List.length hxe
        rw [List.length_append, renameTarget_length hne] at hlen
        simp at hlen
    · rw [renamePath_unrelated _ hp] at hxe
      subst hxe
      exact hp (isPrefixOf_self x)

/-- Claim C5 witness: in a filesystem with entries `Dir`, `Dir/KID` and a
colliding pair `Foo`, `foo`, the traversal is depth-sorted; `foo` is
skipped as already lowercase; `Foo` is skipped because `foo` exists;
`Dir/KID` is renamed to `Dir/kid`. -/
theorem claim5_rename_loop_witness :
    ((sortByDepth [["Dir".data], ["Dir".data, "KID".data], ["Foo".data], ["foo".data]]).Perm
        [["Dir".data], ["Dir".data, "KID".data], ["Foo".data], ["foo".data]] ∧
      List.Pairwise (fun a b : FsPath => b.length ≤ a.length)
        (sortByDepth [["Dir".data], ["Dir".data, "KID".data], ["Foo".data], ["foo".data]])) ∧
      fnStep [["Foo".data], ["foo".data]] ["foo".data] = [["Foo".data], ["foo".data]] ∧
      fnStep [["Foo".data], ["foo".data]] ["Foo".data] = [["Foo".data], ["foo".data]] ∧
      (["Dir".data, "kid".data]
          ∈ fnStep [["Dir".data], ["Dir".data, "KID".data]] ["Dir".data, "KID".data] ∧
        ["Dir".data, "KID".data]
          ∉ fnStep [["Dir".data], ["Dir".data, "KID".data]] ["Dir".data, "KID".data]) := by
  refine ⟨claim5_rename_loop.1 _, ?_, ?_, ?_⟩
  · exact claim5_rename_loop.2.2.1 _ _ (by decide)
  · exact claim5_rename_loop.2.2.2.1 _ _ (by decide)
  · exact claim5_rename_loop.2.2.2.2 _ _ (by decide) (by decide) (by decide) (by decide)

/-! ### Claim C4: lowercasing totality -/

/-- A filesystem listing is prefix-closed when every entry is nonempty and
the parent of every non-root entry is also listed, as holds for the set of
paths a real filesystem walk produces. -/
def PrefixClosed (fs : List FsPath) : Prop :=
  ∀ p ∈ fs, p ≠ [] ∧ (p.dropLast ≠ [] → p.dropLast ∈ fs)

/-- No two sibling entries share the same lowercased basename. -/
def NoCollision (fs : List FsPath) : Prop :=
  ∀ p ∈ fs, ∀ q ∈ fs, p.dropLast = q.dropLast →
    lowSeg (lastSeg p) = lowSeg (lastSeg q) → p = q

theorem lastSeg_append {dx : FsPath} (a : FsPath) (h : dx ≠ []) :
    lastSeg (a ++ dx) = lastSeg dx := by
  have hd := lastSeg_decomp h
  calc lastSeg (a ++ dx)
      = lastSeg (a ++ (dx.dropLast ++ [lastSeg dx])) := by rw [hd]
    _ = lastSeg ((a ++ dx.dropLast) ++ [lastSeg dx]) := by rw [List.append_assoc]
    _ = lastSeg dx := by unfold lastSeg; exact List.getLastD_concat _ _ _

theorem closed_prefix_mem {fs : List FsPath} (hc : PrefixClosed fs) :
    ∀ (n : Nat) (p : FsPath), p.length ≤ n → p ∈ fs →
      ∀ q, q ≠ [] → q <+: p → q ∈ fs := by
  intro n
  induction n with
  | zero =>
    intro p hl hp q hq hpre
    have : p = [] := List.length_eq_zero.mp (Nat.le_zero.mp hl)
    subst this
    rw [List.prefix_nil] at hpre
    exact absurd hpre hq
  | succ n ih =>
    intro p hl hp q hq hpre
    by_cases heq : q = p
    · subst heq; exact hp
    · obtain ⟨r, hr⟩ := hpre
      have hrne : r ≠ [] := by
        intro h0
        subst h0
        exact heq (by simpa using hr)
      have hdropmem : p.dropLast ∈ fs := by
        apply (hc p hp).2
        rw [← hr, List.dropLast_append_of_ne_nil _ hrne]
        intro h0
        have := congrArg List.length h0
        simp at this
        exact hq this.1
      have hpre2 : q <+: p.dropLast := by
        rw [← hr, List.dropLast_append_of_ne_nil _ hrne]
        exact ⟨r.dropLast, rfl⟩
      apply ih p.dropLast ?_ hdropmem q hq hpre2
      have h1 : p ≠ [] := (hc p hp).1
      have h2 : 0 < p.length := List.length_pos.mpr h1
      rw [List.length_dropLast]
      omega

theorem renamePath_trichotomy (i t x : FsPath) :
    (i.isPrefixOf x = false ∧ renamePath i t x = x) ∨
    (x = i ∧ renamePath i t x = t) ∨
    (∃ dx, dx ≠ [] ∧ x = i ++ dx ∧ renamePath i t x = t ++ dx) := by
  by_cases hp : i.isPrefixOf x = true
  · obtain ⟨r, hr⟩ := List.isPrefixOf_iff_prefix.mp hp
    cases r with
    | nil =>
      right; left
      have hx : x = i := by rw [← hr]; simp
      subst hx
      exact ⟨rfl, renamePath_self x t⟩
    | cons r0 rs =>
      right; right
      refine ⟨r0 :: rs, List.cons_ne_nil r0 rs, hr.symm, ?_⟩
      rw [renamePath_extends _ hp, ← hr]
      simp
  · left
    refine ⟨?_, renamePath_unrelated _ hp⟩
    cases hx : i.isPrefixOf x
    · rfl
    · exact absurd hx hp

theorem renameTarget_ne_nil (i : FsPath) : renameTarget i ≠ [] := by
  unfold renameTarget
  simp

theorem lowSeg_idem (s : Seg) : lowSeg (lowSeg s) = lowSeg s :=
  lowerStr_idem s

/-- Core invariant of the renaming loop: starting from a duplicate-free,
prefix-closed, collision-free filesystem whose uppercase-named entries all
still await processing in the depth-sorted work list, after the loop every
entry's basename is lowercase. -/
theorem fold_all_lower :
    ∀ (L : List FsPath) (fs : List FsPath),
      L.Nodup →
      List.Pairwise (fun a b : FsPath => b.length ≤ a.length) L →
      (∀ x ∈ L, x ∈ fs) →
      fs.Nodup → PrefixClosed fs → NoCollision fs →
      (∀ p ∈ fs, lastSeg p ≠ lowSeg (lastSeg p) → p ∈ L) →
      ∀ p ∈ L.foldl fnStep fs, lastSeg p = lowSeg (lastSeg p) := by
  intro L
  induction L with
  | nil =>
    intro fs _ _ _ _ _ _ hupD p hp
    by_contra hne
    exact absurd (hupD p hp hne) (List.not_mem_nil p)
  | cons i L ih =>
    intro fs hndL hsort hLfs hnd hcl hcol hupD
    rw [List.foldl_cons]
    have hiL : i ∈ fs := hLfs i (List.mem_cons_self i L)
    have hine : i ≠ [] := (hcl i hiL).1
    have hndL' : L.Nodup := (List.nodup_cons.mp hndL).2
    have hiNotL : i ∉ L := (List.nodup_cons.mp hndL).1
    have hsort' : List.Pairwise (fun a b : FsPath => b.length ≤ a.length) L :=
      (List.pairwise_cons.mp hsort).2
    have hlenL : ∀ x ∈ L, x.length ≤ i.length := (List.pairwise_cons.mp hsort).1
    by_cases hup : lastSeg i = lowSeg (lastSeg i)
    · rw [fnStep_skip_lower hup]
      apply ih fs hndL' hsort' (fun x hx => hLfs x (List.mem_cons_of_mem i hx))
        hnd hcl hcol
      intro p hp hpu
      cases List.mem_cons.mp (hupD p hp hpu) with
      | inl h => exact absurd (h ▸ hup) hpu
      | inr h => exact h
    · have htgt : renameTarget i ∉ fs := by
        intro ht
        have h1 : (renameTarget i).dropLast = i.dropLast := dropLast_renameTarget i
        have h2 : lowSeg (lastSeg (renameTarget i)) = lowSeg (lastSeg i) := by
          rw [lastSeg_renameTarget]
          exact lowerStr_idem _
        exact renameTarget_ne hine hup (hcol (renameTarget i) ht i hiL h1 h2)
      rw [fnStep_renames hup htgt]
      have htne : renameTarget i ≠ [] := renameTarget_ne_nil i
      have htlen : (renameTarget i).length = i.length := renameTarget_length hine
      have htpre : ∀ y ∈ fs, ¬ renameTarget i <+: y := by
        intro y hy hpre
        exact htgt (closed_prefix_mem hcl y.length y (Nat.le_refl _) hy
          (renameTarget i) htne hpre)
      have hreni : renamePath i (renameTarget i) i = renameTarget i :=
        renamePath_self i (renameTarget i)
      -- characterizations of the rename on basenames and parents
      have hlow : ∀ x ∈ fs,
          lowSeg (lastSeg (renamePath i (renameTarget i) x)) = lowSeg (lastSeg x) := by
        intro x _
        rcases renamePath_trichotomy i (renameTarget i) x with
          ⟨_, hex⟩ | ⟨hxi, hex⟩ | ⟨dx, hdx, hxd, hex⟩
        · rw [hex]
        · rw [hex, lastSeg_renameTarget, lowSeg_idem, hxi]
        · rw [hex, lastSeg_append _ hdx, hxd, lastSeg_append _ hdx]
      have hinj : ∀ x ∈ fs, ∀ y ∈ fs,
          renamePath i (renameTarget i) x = renamePath i (renameTarget i) y →
            x = y := by
        intro x hx y hy hxy
        rcases renamePath_trichotomy i (renameTarget i) x with
          ⟨hpx, hex⟩ | ⟨hxi, hex⟩ | ⟨dx, hdx, hxd, hex⟩ <;>
          rcases renamePath_trichotomy i (renameTarget i) y with
            ⟨hpy, hey⟩ | ⟨hyi, hey⟩ | ⟨dy, hdy, hyd, hey⟩
        · rw [hex, hey] at hxy; exact hxy
        · rw [hex, hey] at hxy
          subst hxy
          exact absurd (List.prefix_refl (renameTarget i)) (htpre _ hx)
        · rw [hex, hey] at hxy
          exact absurd ⟨dy, hxy.symm⟩ (htpre x hx)
        · rw [hex, hey] at hxy
          refine absurd ⟨[], ?_⟩ (htpre y hy)
          rw [List.append_nil]
          exact hxy
        · rw [hxi, hyi]
        · rw [hex, hey] at hxy
          have hlen := congrArg List.length hxy
          rw [List.length_append] at hlen
          exact absurd (List.length_eq_zero.mp (by omega)) hdy
        · rw [hex, hey] at hxy
          exact absurd ⟨dx, hxy⟩ (htpre y hy)
        · rw [hex, hey] at hxy
          have hlen := congrArg List.length hxy
          rw [List.length_append] at hlen
          exact absurd (List.length_eq_zero.mp (by omega)) hdx
        · rw [hex, hey] at hxy
          have hde : dx = dy := List.append_cancel_left hxy
          rw [hxd, hyd, hde]
      apply ih (fs.map (renamePath i (renameTarget i))) hndL' hsort' ?_ ?_ ?_ ?_ ?_
      -- remaining items survive unrenamed
      · intro x hx
        have hxfs := hLfs x (List.mem_cons_of_mem i hx)
        have hnp : i.isPrefixOf x = false := by
          cases hpx : i.isPrefixOf x
          · rfl
          · obtain ⟨r, hr⟩ := List.isPrefixOf_iff_prefix.mp hpx
            cases r with
            | nil =>
              exfalso
              apply hiNotL
              have : x = i := by rw [← hr]; simp
              exact this ▸ hx
            | cons r0 rs =>
              exfalso
              have hlx := hlenL x hx
              have := congrArg List.length hr
              simp at this
              omega
        exact List.mem_map.mpr ⟨x, hxfs, renamePath_unrelated _ (by simp [hnp])⟩
      -- no duplicates
      · exact List.Nodup.map_on hinj hnd
      -- prefix closure
      · intro p' hp'
        obtain ⟨x, hx, rfl⟩ := List.mem_map.mp hp'
        rcases renamePath_trichotomy i (renameTarget i) x with
          ⟨hpx, hex⟩ | ⟨hxi, hex⟩ | ⟨dx, hdx, hxd, hex⟩
        · rw [hex]
          refine ⟨(hcl x hx).1, fun hdne => ?_⟩
          have hdm := (hcl x hx).2 hdne
          clear hex
          refine List.mem_map.mpr ⟨x.dropLast, hdm, ?_⟩
          apply renamePath_unrelated
          intro hpd
          have h1 : i <+: x.dropLast := List.isPrefixOf_iff_prefix.mp hpd
          have h2 : i <+: x := h1.trans (List.dropLast_prefix x)
          rw [← List.isPrefixOf_iff_prefix, hpx] at h2
          exact Bool.false_ne_true h2
        · rw [hex]
          refine ⟨htne, fun hdne => ?_⟩
          rw [dropLast_renameTarget] at hdne ⊢
          have hdm := (hcl i hiL).2 hdne
          refine List.mem_map.mpr ⟨i.dropLast, hdm, ?_⟩
          apply renamePath_unrelated
          intro hpd
          have h1 : i <+: i.dropLast := List.isPrefixOf_iff_prefix.mp hpd
          have h2 := h1.length_le
          have h3 : 0 < i.length := List.length_pos.mpr hine
          rw [List.length_dropLast] at h2
          omega
        · rw [hex]
          refine ⟨by simp [htne], fun hdne => ?_⟩
          by_cases hdd : dx.dropLast = []
          · refine List.mem_map.mpr ⟨i, hiL, ?_⟩
            rw [hreni, List.dropLast_append_of_ne_nil _ hdx, hdd, List.append_nil]
          · refine List.mem_map.mpr ⟨x.dropLast, ?_, ?_⟩
            · apply (hcl x hx).2
              rw [hxd, List.dropLast_append_of_ne_nil _ hdx]
              simp [hine]
            · rw [hxd, List.dropLast_append_of_ne_nil _ hdx,
                renamePath_extends _
                  (List.isPrefixOf_iff_prefix.mpr ⟨dx.dropLast, rfl⟩),
                List.dropLast_append_of_ne_nil _ hdx]
              simp
      -- collision freedom
      · intro p' hp' q' hq' hdl hll
        obtain ⟨x, hx, rfl⟩ := List.mem_map.mp hp'
        obtain ⟨y, hy, rfl⟩ := List.mem_map.mp hq'
        rw [hlow x hx, hlow y hy] at hll
        suffices hxy : x = y by rw [hxy]
        rcases renamePath_trichotomy i (renameTarget i) x with
          ⟨hpx, hex⟩ | ⟨hxi, hex⟩ | ⟨dx, hdx, hxd, hex⟩ <;>
          rcases renamePath_trichotomy i (renameTarget i) y with
            ⟨hpy, hey⟩ | ⟨hyi, hey⟩ | ⟨dy, hdy, hyd, hey⟩
        · rw [hex, hey] at hdl
          exact hcol x hx y hy hdl hll
        · exfalso
          rw [hex, hey, dropLast_renameTarget] at hdl
          have hxieq : x = i := by
            apply hcol x hx i hiL hdl
            rw [hll, hyi]
          rw [hxieq, isPrefixOf_self] at hpx
          simp at hpx
        · exfalso
          rw [hex, hey, List.dropLast_append_of_ne_nil _ hdy] at hdl
          have : renameTarget i <+: x.dropLast := ⟨dy.dropLast, hdl.symm⟩
          exact htpre x hx (this.trans (List.dropLast_prefix x))
        · exfalso
          rw [hex, hey, dropLast_renameTarget] at hdl
          have hyieq : y = i := by
            apply hcol y hy i hiL hdl.symm
            rw [← hll, hxi]
          rw [hyieq, isPrefixOf_self] at hpy
          simp at hpy
        · rw [hxi, hyi]
        · exfalso
          rw [hex, hey, dropLast_renameTarget,
            List.dropLast_append_of_ne_nil _ hdy] at hdl
          have := congrArg List.length hdl
          rw [List.length_dropLast, List.length_append, htlen] at this
          have h3 : 0 < i.length := List.length_pos.mpr hine
          omega
        · exfalso
          rw [hex, hey, List.dropLast_append_of_ne_nil _ hdx] at hdl
          have : renameTarget i <+: y.dropLast := ⟨dx.dropLast, hdl⟩
          exact htpre y hy (this.trans (List.dropLast_prefix y))
        · exfalso
          rw [hex, hey, dropLast_renameTarget,
            List.dropLast_append_of_ne_nil _ hdx] at hdl
          have := congrArg List.length hdl
          rw [List.length_dropLast, List.length_append, htlen] at this
          have h3 : 0 < i.length := List.length_pos.mpr hine
          omega
        · rw [hex, hey, List.dropLast_append_of_ne_nil _ hdx,
            List.dropLast_append_of_ne_nil _ hdy] at hdl
          have hde : dx.dropLast = dy.dropLast := List.append_cancel_left hdl
          apply hcol x hx y hy
          · rw [hxd, hyd, List.dropLast_append_of_ne_nil _ hdx,
              List.dropLast_append_of_ne_nil _ hdy, hde]
          · exact hll
      -- uppercase entries still pending
      · intro p' hp' hpu
        obtain ⟨x, hx, rfl⟩ := List.mem_map.mp hp'
        rcases renamePath_trichotomy i (renameTarget i) x with
          ⟨hpx, hex⟩ | ⟨hxi, hex⟩ | ⟨dx, hdx, hxd, hex⟩
        · rw [hex] at hpu ⊢
          cases List.mem_cons.mp (hupD x hx hpu) with
          | inl h =>
            exfalso
            rw [h, isPrefixOf_self] at hpx
            simp at hpx
          | inr h => exact h
        · exfalso
          rw [hex, lastSeg_renameTarget] at hpu
          exact hpu (lowSeg_idem _).symm
        · exfalso
          rw [hex, lastSeg_append _ hdx] at hpu
          have hpu2 : lastSeg x ≠ lowSeg (lastSeg x) := by
            rw [hxd, lastSeg_append _ hdx]
            exact hpu
          cases List.mem_cons.mp (hupD x hx hpu2) with
          | inl h =>
            rw [h] at hxd
            have hlen := congrArg List.length hxd
            rw [List.length_append] at hlen
            exact absurd (List.length_eq_zero.mp (by omega)) hdx
          | inr h =>
            have h1 := hlenL x h
            have := congrArg List.length hxd
            simp at this
            have h2 : 0 < dx.length := List.length_pos.mpr hdx
            omega

/-! ### Claim C4 statements, and the fixed point of the renaming stage -/

theorem renameTarget_not_prefix_mem {fs : List FsPath} {i : FsPath}
    (hcl : PrefixClosed fs) (htgt : renameTarget i ∉ fs) :
    ∀ y ∈ fs, ¬ renameTarget i <+: y := by
  intro y hy hpre
  exact htgt (closed_prefix_mem hcl y.length y (Nat.le_refl _) hy _
    (renameTarget_ne_nil i) hpre)

theorem renamePath_inj_on {fs : List FsPath} {i : FsPath}
    (hcl : PrefixClosed fs) (htgt : renameTarget i ∉ fs) :
    ∀ x ∈ fs, ∀ y ∈ fs,
      renamePath i (renameTarget i) x = renamePath i (renameTarget i) y →
        x = y := by
  have htpre := renameTarget_not_prefix_mem hcl htgt
  intro x hx y hy hxy
  rcases renamePath_trichotomy i (renameTarget i) x with
    ⟨hpx, hex⟩ | ⟨hxi, hex⟩ | ⟨dx, hdx, hxd, hex⟩ <;>
    rcases renamePath_trichotomy i (renameTarget i) y with
      ⟨hpy, hey⟩ | ⟨hyi, hey⟩ | ⟨dy, hdy, hyd, hey⟩
  · rw [hex, hey] at hxy; exact hxy
  · rw [hex, hey] at hxy
    subst hxy
    exact absurd (List.prefix_refl (renameTarget i)) (htpre _ hx)
  · rw [hex, hey] at hxy
    exact absurd ⟨dy, hxy.symm⟩ (htpre x hx)
  · rw [hex, hey] at hxy
    refine absurd ⟨[], ?_⟩ (htpre y hy)
    rw [List.append_nil]
    exact hxy
  · rw [hxi, hyi]
  · rw [hex, hey] at hxy
    have hlen := congrArg List.length hxy
    rw [List.length_append] at hlen
    exact absurd (List.length_eq_zero.mp (by omega)) hdy
  · rw [hex, hey] at hxy
    exact absurd ⟨dx, hxy⟩ (htpre y hy)
  · rw [hex, hey] at hxy
    have hlen := congrArg List.length hxy
    rw [List.length_append] at hlen
    exact absurd (List.length_eq_zero.mp (by omega)) hdx
  · rw [hex, hey] at hxy
    have hde : dx = dy := List.append_cancel_left hxy
    rw [hxd, hyd, hde]

theorem renamePath_preserves_closed {fs : List FsPath} {i : FsPath}
    (hcl : PrefixClosed fs) (hiL : i ∈ fs) :
    PrefixClosed (fs.map (renamePath i (renameTarget i))) := by
  have hine : i ≠ [] := (hcl i hiL).1
  have htne : renameTarget i ≠ [] := renameTarget_ne_nil i
  have hreni : renamePath i (renameTarget i) i = renameTarget i :=
    renamePath_self i (renameTarget i)
  intro p' hp'
  obtain ⟨x, hx, rfl⟩ := List.mem_map.mp hp'
  rcases renamePath_trichotomy i (renameTarget i) x with
    ⟨hpx, hex⟩ | ⟨hxi, hex⟩ | ⟨dx, hdx, hxd, hex⟩
  · rw [hex]
    refine ⟨(hcl x hx).1, fun hdne => ?_⟩
    have hdm := (hcl x hx).2 hdne
    refine List.mem_map.mpr ⟨x.dropLast, hdm, ?_⟩
    apply renamePath_unrelated
    intro hpd
    have h1 : i <+: x.dropLast := List.isPrefixOf_iff_prefix.mp hpd
    have h2 : i <+: x := h1.trans (List.dropLast_prefix x)
    rw [← List.isPrefixOf_iff_prefix, hpx] at h2
    exact Bool.false_ne_true h2
  · rw [hex]
    refine ⟨htne, fun hdne => ?_⟩
    rw [dropLast_renameTarget] at hdne ⊢
    have hdm := (hcl i hiL).2 hdne
    refine List.mem_map.mpr ⟨i.dropLast, hdm, ?_⟩
    apply renamePath_unrelated
    intro hpd
    have h1 : i <+: i.dropLast := List.isPrefixOf_iff_prefix.mp hpd
    have h2 := h1.length_le
    have h3 : 0 < i.length := List.length_pos.mpr hine
    rw [List.length_dropLast] at h2
    omega
  · rw [hex]
    refine ⟨by simp [htne], fun hdne => ?_⟩
    by_cases hdd : dx.dropLast = []
    · refine List.mem_map.mpr ⟨i, hiL, ?_⟩
      rw [hreni, List.dropLast_append_of_ne_nil _ hdx, hdd, List.append_nil]
    · refine List.mem_map.mpr ⟨x.dropLast, ?_, ?_⟩
      · apply (hcl x hx).2
        rw [hxd, List.dropLast_append_of_ne_nil _ hdx]
        simp [hine]
      · rw [hxd, List.dropLast_append_of_ne_nil _ hdx,
          renamePath_extends _
            (List.isPrefixOf_iff_prefix.mpr ⟨dx.dropLast, rfl⟩),
          List.dropLast_append_of_ne_nil _ hdx]
        simp

/-- A filesystem is rename-stable when every entry that still has an
uppercase basename is blocked by an existing lowercase sibling. -/
def RenameStable (fs : List FsPath) : Prop :=
  ∀ p ∈ fs, lastSeg p ≠ lowSeg (lastSeg p) → renameTarget p ∈ fs

theorem prefix_snoc_cases {i a : FsPath} {e : Seg} (h : i <+: a ++ [e]) :
    i <+: a ∨ i = a ++ [e] := by
  obtain ⟨r, hr⟩ := h
  by_cases hrn : r = []
  · right
    rw [← hr, hrn, List.append_nil]
  · left
    have hd := List.dropLast_append_getLast hrn
    rw [← hd, ← List.append_assoc] at hr
    have hlen := congrArg List.length hr
    simp only [List.length_append, List.length_cons, List.length_nil] at hlen
    have hlen2 : (i ++ r.dropLast).length = a.length := by
      simp only [List.length_append]
      omega
    exact ⟨r.dropLast, (List.append_inj hr hlen2).1⟩

theorem renameTarget_append {a dx : FsPath} (h : dx ≠ []) :
    renameTarget (a ++ dx) = a ++ renameTarget dx := by
  unfold renameTarget
  rw [List.dropLast_append_of_ne_nil _ h, lastSeg_append a h, List.append_assoc]

theorem renameTarget_mem_survives {i x : FsPath}
    (hup : lastSeg i ≠ lowSeg (lastSeg i))
    (hnpx : i.isPrefixOf x = false) :
    renamePath i (renameTarget i) (renameTarget x) = renameTarget x := by
  apply renamePath_unrelated
  intro hpd
  have h1 : i <+: x.dropLast ++ [lowSeg (lastSeg x)] :=
    List.isPrefixOf_iff_prefix.mp hpd
  cases prefix_snoc_cases h1 with
  | inl h2 =>
    have h3 : i <+: x := h2.trans (List.dropLast_prefix x)
    rw [← List.isPrefixOf_iff_prefix, hnpx] at h3
    exact Bool.false_ne_true h3
  | inr h2 =>
    apply hup
    have : lastSeg i = lowSeg (lastSeg x) := by
      rw [h2]
      unfold lastSeg
      exact List.getLastD_concat _ _ _
    rw [this, lowSeg_idem]

/-- After the renaming loop, every remaining uppercase-named entry is
blocked by its lowercase sibling. -/
theorem fold_stable :
    ∀ (L : List FsPath) (fs : List FsPath),
      L.Nodup →
      List.Pairwise (fun a b : FsPath => b.length ≤ a.length) L →
      (∀ x ∈ L, x ∈ fs) →
      fs.Nodup → PrefixClosed fs →
      (∀ p ∈ fs, lastSeg p ≠ lowSeg (lastSeg p) →
        p ∈ L ∨ renameTarget p ∈ fs) →
      RenameStable (L.foldl fnStep fs) := by
  intro L
  induction L with
  | nil =>
    intro fs _ _ _ _ _ hupD p hp hpu
    cases hupD p hp hpu with
    | inl h => exact absurd h (List.not_mem_nil p)
    | inr h => exact h
  | cons i L ih =>
    intro fs hndL hsort hLfs hnd hcl hupD
    rw [List.foldl_cons]
    have hiL : i ∈ fs := hLfs i (List.mem_cons_self i L)
    have hine : i ≠ [] := (hcl i hiL).1
    have hndL' : L.Nodup := (List.nodup_cons.mp hndL).2
    have hiNotL : i ∉ L := (List.nodup_cons.mp hndL).1
    have hsort' : List.Pairwise (fun a b : FsPath => b.length ≤ a.length) L :=
      (List.pairwise_cons.mp hsort).2
    have hlenL : ∀ x ∈ L, x.length ≤ i.length := (List.pairwise_cons.mp hsort).1
    by_cases hup : lastSeg i = lowSeg (lastSeg i)
    · rw [fnStep_skip_lower hup]
      apply ih fs hndL' hsort' (fun x hx => hLfs x (List.mem_cons_of_mem i hx))
        hnd hcl
      intro p hp hpu
      cases hupD p hp hpu with
      | inl h =>
        cases List.mem_cons.mp h with
        | inl h2 => exact absurd (h2 ▸ hup) hpu
        | inr h2 => exact Or.inl h2
      | inr h => exact Or.inr h
    · by_cases htgt : renameTarget i ∈ fs
      · rw [fnStep_skip_exists htgt]
        apply ih fs hndL' hsort' (fun x hx => hLfs x (List.mem_cons_of_mem i hx))
          hnd hcl
        intro p hp hpu
        cases hupD p hp hpu with
        | inl h =>
          cases List.mem_cons.mp h with
          | inl h2 => exact Or.inr (h2 ▸ htgt)
          | inr h2 => exact Or.inl h2
        | inr h => exact Or.inr h
      · rw [fnStep_renames hup htgt]
        have htlen : (renameTarget i).length = i.length := renameTarget_length hine
        apply ih (fs.map (renamePath i (renameTarget i))) hndL' hsort' ?_ ?_ ?_ ?_
        -- remaining items survive unrenamed
        · intro x hx
          have hxfs := hLfs x (List.mem_cons_of_mem i hx)
          have hnp : i.isPrefixOf x = false := by
            cases hpx : i.isPrefixOf x
            · rfl
            · obtain ⟨r, hr⟩ := List.isPrefixOf_iff_prefix.mp hpx
              cases r with
              | nil =>
                exfalso
                apply hiNotL
                have : x = i := by rw [← hr]; simp
                exact this ▸ hx
              | cons r0 rs =>
                exfalso
                have hlx := hlenL x hx
                have := congrArg List.length hr
                simp at this
                omega
          exact List.mem_map.mpr ⟨x, hxfs, renamePath_unrelated _ (by simp [hnp])⟩
        · exact List.Nodup.map_on (renamePath_inj_on hcl htgt) hnd
        · exact renamePath_preserves_closed hcl hiL
        · intro p' hp' hpu
          obtain ⟨x, hx, rfl⟩ := List.mem_map.mp hp'
          rcases renamePath_trichotomy i (renameTarget i) x with
            ⟨hpx, hex⟩ | ⟨hxi, hex⟩ | ⟨dx, hdx, hxd, hex⟩
          · rw [hex] at hpu ⊢
            cases hupD x hx hpu with
            | inl h =>
              cases List.mem_cons.mp h with
              | inl h2 =>
                exfalso
                rw [h2, isPrefixOf_self] at hpx
                simp at hpx
              | inr h2 => exact Or.inl h2
            | inr h =>
              right
              exact List.mem_map.mpr
                ⟨renameTarget x, h, renameTarget_mem_survives hup hpx⟩
          · exfalso
            rw [hex, lastSeg_renameTarget] at hpu
            exact hpu (lowSeg_idem _).symm
          · rw [hex] at hpu ⊢
            rw [lastSeg_append _ hdx] at hpu
            have hpu2 : lastSeg x ≠ lowSeg (lastSeg x) := by
              rw [hxd, lastSeg_append _ hdx]
              exact hpu
            cases hupD x hx hpu2 with
            | inl h =>
              exfalso
              cases List.mem_cons.mp h with
              | inl h2 =>
                rw [h2] at hxd
                have hlen := congrArg List.length hxd
                rw [List.length_append] at hlen
                exact absurd (List.length_eq_zero.mp (by omega)) hdx
              | inr h2 =>
                have h1 := hlenL x h2
                have := congrArg List.length hxd
                simp at this
                have h2l : 0 < dx.length := List.length_pos.mpr hdx
                omega
            | inr h =>
              right
              refine List.mem_map.mpr ⟨renameTarget x, h, ?_⟩
              rw [hxd, renameTarget_append hdx, renameTarget_append hdx,
                renamePath_extends _ (List.isPrefixOf_iff_prefix.mpr ⟨_, rfl⟩)]
              simp

/-- A rename-stable filesystem is a fixed point of the renaming loop. -/
theorem fnFold_id_of_stable :
    ∀ (L : List FsPath) (fs : List FsPath),
      (∀ x ∈ L, x ∈ fs) → RenameStable fs → L.foldl fnStep fs = fs := by
  intro L
  induction L with
  | nil => intro fs _ _; rfl
  | cons x L ih =>
    intro fs hLfs hst
    rw [List.foldl_cons]
    have hxfs := hLfs x (List.mem_cons_self x L)
    have hstep : fnStep fs x = fs := by
      by_cases hup : lastSeg x = lowSeg (lastSeg x)
      · exact fnStep_skip_lower hup
      · exact fnStep_skip_exists (hst x hxfs hup)
    rw [hstep]
    exact ih fs (fun y hy => hLfs y (List.mem_cons_of_mem x hy)) hst

/-- The renaming stage is a fixed point on its own output. -/
theorem normalize_filenames_fixed (fs : List FsPath)
    (hnd : fs.Nodup) (hcl : PrefixClosed fs) :
    normalize_filenames (normalize_filenames fs) = normalize_filenames fs := by
  have hstable : RenameStable (normalize_filenames fs) := by
    apply fold_stable (sortByDepth fs) fs
      (((sortByDepth_perm fs).nodup_iff).mpr hnd) (sortByDepth_sorted fs)
      (fun x hx => ((sortByDepth_perm fs).mem_iff).mp hx) hnd hcl
    intro p hp _
    exact Or.inl (((sortByDepth_perm fs).mem_iff).mpr hp)
  apply fnFold_id_of_stable
  · intro x hx
    exact ((sortByDepth_perm _).mem_iff).mp hx
  · exact hstable

/-- Claim C4 counterexample: with colliding siblings `Foo` and `foo`, the
renaming stage leaves the uppercase `Foo` in place, so an uppercase name
survives the run. -/
theorem claim4_counterexample :
    ["Foo".data] ∈ normalize_filenames [["Foo".data], ["foo".data]] ∧
      lastSeg ["Foo".data] ≠ lowSeg (lastSeg ["Foo".data]) := by
  constructor
  · have hfold : ∀ L : List FsPath,
        (∀ x ∈ L, x ∈ ([[ "Foo".data ], [ "foo".data ]] : List FsPath)) →
        L.foldl fnStep [["Foo".data], ["foo".data]]
          = [["Foo".data], ["foo".data]] := by
      intro L
      induction L with
      | nil => intro _; rfl
      | cons x t ih =>
        intro hx
        rw [List.foldl_cons]
        have hx0 := hx x (List.mem_cons_self x t)
        have hstep : fnStep [["Foo".data], ["foo".data]] x
            = [["Foo".data], ["foo".data]] := by
          rcases List.mem_cons.mp hx0 with h | h
          · subst h
            exact fnStep_skip_exists (by decide)
          · rcases List.mem_cons.mp h with h2 | h2
            · subst h2
              exact fnStep_skip_lower (by decide)
            · simp at h2
        rw [hstep]
        exact ih (fun y hy => hx y (List.mem_cons_of_mem x hy))
    have heq := hfold (sortByDepth [["Foo".data], ["foo".data]])
      (fun x hx => ((sortByDepth_perm _).mem_iff).mp hx)
    unfold normalize_filenames
    rw [heq]
    decide
  · decide

/-- Claim C4 (amended): after the renaming stage, no file or directory
name under the root contains an uppercase character, provided no two
sibling entries share the same lowercased name (the code skips the rename
on such a collision, leaving the uppercase name in place). -/
theorem claim4_lowercasing_amended :
    ∀ fs : List FsPath, fs.Nodup → PrefixClosed fs → NoCollision fs →
      ∀ p ∈ normalize_filenames fs, lastSeg p = lowSeg (lastSeg p) := by
  intro fs hnd hcl hcol
  apply fold_all_lower (sortByDepth fs) fs
    (((sortByDepth_perm fs).nodup_iff).mpr hnd) (sortByDepth_sorted fs)
    (fun x hx => ((sortByDepth_perm fs).mem_iff).mp hx) hnd hcl hcol
  intro p hp _
  exact ((sortByDepth_perm fs).mem_iff).mpr hp

/-- Witness for the amended C4 theorem at a concrete one-entry tree. -/
theorem claim4_lowercasing_amended_witness :
    ([["Dir".data]] : List FsPath).Nodup ∧ PrefixClosed [["Dir".data]] ∧
      NoCollision [["Dir".data]] ∧
      ∀ p ∈ normalize_filenames [["Dir".data]], lastSeg p = lowSeg (lastSeg p) :=
  ⟨by decide, by unfold PrefixClosed; decide, by unfold NoCollision; decide,
    claim4_lowercasing_amended [["Dir".data]] (by decide)
      (by unfold PrefixClosed; decide) (by unfold NoCollision; decide)⟩

theorem containsStr_map_lower :
    ∀ {pat s : List Char}, containsStr pat s = true →
      containsStr (List.map lowerChar pat) (List.map lowerChar s) = true := by
  intro pat s
  induction s with
  | nil =>
    intro h
    cases pat with
    | nil => rfl
    | cons q qs => simp [containsStr] at h
  | cons c t ih =>
    intro h
    rw [containsStr_cons_eq] at h
    rw [List.map_cons, containsStr_cons_eq]
    cases hp : pat.isPrefixOf (c :: t) with
    | true =>
      have hpre : pat <+: c :: t := List.isPrefixOf_iff_prefix.mp hp
      have hm : List.map lowerChar pat <+: List.map lowerChar (c :: t) :=
        hpre.map lowerChar
      rw [List.map_cons] at hm
      rw [List.isPrefixOf_iff_prefix.mpr hm, Bool.true_or]
    | false =>
      rw [hp, Bool.false_or] at h
      rw [ih h, Bool.or_true]

theorem countUps_ups (t : List Char) :
    countUps ('.' :: '.' :: '/' :: t) = countUps t + 1 := rfl

theorem countUps_not_ups {c : Char} {t : List Char}
    (h : ∀ t', c :: t = '.' :: '.' :: '/' :: t' → False) :
    countUps (c :: t) = countUps t := by
  rw [countUps.eq_def]
  split
  · next t' heq => exact absurd heq (h t')
  · next heq => injection heq with h1 h2; rw [h2]
  · next heq => cases heq

theorem countUps_map_lower (s : List Char) :
    countUps (List.map lowerChar s) = countUps s := by
  induction s using countUps.induct with
  | case1 t ih =>
    have hdot : lowerChar '.' = '.' := by decide
    have hsl : lowerChar '/' = '/' := by decide
    simp only [List.map_cons, hdot, hsl]
    rw [countUps_ups, countUps_ups, ih]
  | case2 c t h ih =>
    have h' : ∀ t', c :: t = '.' :: '.' :: '/' :: t' → False := by
      intro t' heq
      injection heq with ha hb
      exact h t' ha hb
    simp only [List.map_cons]
    rw [countUps_not_ups, ih]
    · exact (countUps_not_ups h').symm
    · intro t' heq
      injection heq with h1 h2
      cases t with
      | nil => simp at h2
      | cons a t2 =>
        simp only [List.map_cons] at h2
        injection h2 with h3 h4
        cases t2 with
        | nil => simp at h4
        | cons b t3 =>
          simp only [List.map_cons] at h4
          injection h4 with h5 _
          have hc : c = '.' :=
            eq_of_lowerChar_eq_nonletter (by left; decide) h1
          have ha : a = '.' :=
            eq_of_lowerChar_eq_nonletter (by left; decide) h3
          have hb : b = '/' :=
            eq_of_lowerChar_eq_nonletter (by left; decide) h5
          subst hc ha hb
          exact h t3 rfl rfl
  | case3 => rfl

theorem countUps_upsN_append (n : Nat) (r : List Char) :
    countUps (upsN n ++ r) = n + countUps r := by
  induction n with
  | zero => simp [upsN]
  | succ n ih =>
    show countUps ('.' :: '.' :: '/' :: (upsN n ++ r)) = (n + 1) + countUps r
    rw [countUps_ups, ih]
    omega

theorem extract_ups (t : List Char) :
    extract_path_after_parents ('.' :: '.' :: '/' :: t)
      = extract_path_after_parents t := rfl

theorem extract_upsN_append (n : Nat) (r : List Char) :
    extract_path_after_parents (upsN n ++ r) = extract_path_after_parents r := by
  induction n with
  | zero => rfl
  | succ n ih =>
    show extract_path_after_parents ('.' :: '.' :: '/' :: (upsN n ++ r)) = _
    rw [extract_ups, ih]

theorem leadingUps_ups (t : List Char) :
    leadingUps ('.' :: '.' :: '/' :: t) = leadingUps t + 1 := rfl

theorem extract_eq_of_leadingUps_zero {s : List Char}
    (h : leadingUps s = 0) : extract_path_after_parents s = s := by
  induction s using extract_path_after_parents.induct with
  | case1 t ih =>
    rw [leadingUps_ups] at h
    omega
  | case2 s hs => exact extract_eq_of_not_ups hs

theorem mem_upsN_ne_bs {n : Nat} {c : Char} (h : c ∈ upsN n) : c ≠ '\\' := by
  induction n with
  | zero => simp [upsN] at h
  | succ n ih =>
    simp only [upsN, List.mem_cons] at h
    rcases h with h | h | h | h
    · subst h; decide
    · subst h; decide
    · subst h; decide
    · exact ih h

theorem extract_mem {c : Char} :
    ∀ {s : List Char}, c ∈ extract_path_after_parents s → c ∈ s := by
  intro s
  induction s using extract_path_after_parents.induct with
  | case1 t ih =>
    intro h
    rw [extract_ups] at h
    simp only [List.mem_cons]
    exact Or.inr (Or.inr (Or.inr (ih h)))
  | case2 s hs =>
    intro h
    rwa [extract_eq_of_not_ups hs] at h

theorem map_slash_id_of_no_bs {s : List Char}
    (h : ∀ c ∈ s, c ≠ '\\') : List.map slashChar s = s := by
  induction s with
  | nil => rfl
  | cons c t ih =>
    rw [List.map_cons, slashChar_fixed (h c (List.mem_cons_self c t)),
      ih (fun d hd => h d (List.mem_cons_of_mem c hd))]

theorem no_bs_map_slash (p : List Char) :
    ∀ c ∈ List.map slashChar p, c ≠ '\\' := by
  intro c hc
  obtain ⟨d, _, rfl⟩ := List.mem_map.mp hc
  exact slashChar_ne_backslash d

theorem no_bs_map_lower {s : List Char} (h : ∀ c ∈ s, c ≠ '\\') :
    ∀ c ∈ List.map lowerChar s, c ≠ '\\' := by
  intro c hc
  obtain ⟨d, hd, rfl⟩ := List.mem_map.mp hc
  exact lowerChar_ne_backslash (h d hd)

/-! ### Evaluation lemmas for the per-path rewrites -/

theorem cfg_path_eval_nocfg {d : Nat} {p : List Char}
    (h : containsStr "/cfg/".data (List.map slashChar p) = false) :
    normalize_cfg_path d p = List.map lowerChar (List.map slashChar p) := by
  unfold normalize_cfg_path
  dsimp only
  rw [if_neg (by simp [h])]

theorem cfg_path_eval_eq {d : Nat} {p : List Char}
    (h : containsStr "/cfg/".data (List.map slashChar p) = true)
    (hc : countUps (List.map slashChar p) = d + CFG_DEPTH_OFFSET) :
    normalize_cfg_path d p = List.map lowerChar (List.map slashChar p) := by
  unfold normalize_cfg_path
  dsimp only
  rw [if_pos h, if_neg (not_not_intro hc)]

theorem cfg_path_eval_ne {d : Nat} {p : List Char}
    (h : containsStr "/cfg/".data (List.map slashChar p) = true)
    (hc : countUps (List.map slashChar p) ≠ d + CFG_DEPTH_OFFSET) :
    normalize_cfg_path d p = upsN (d + CFG_DEPTH_OFFSET)
      ++ List.map lowerChar
          (extract_path_after_parents (List.map slashChar p)) := by
  unfold normalize_cfg_path
  dsimp only
  rw [if_pos h, if_pos hc, List.map_append, map_lower_upsN]

theorem echo_path_eval_no_ups (hud p : List Char)
    (h1 : containsStr "../resource/".data (List.map slashChar p) = false)
    (h2 : containsStr "../scripts/".data (List.map slashChar p) = false) :
    normalize_echo_path hud p = List.map lowerChar (List.map slashChar p) := by
  have e1 : upsSegSub "resource".data hud (List.map slashChar p)
      = List.map slashChar p :=
    upsSegSub_id "resource".data hud "../resource/".data rfl _ h1
  have e2 : upsSegSub "scripts".data hud (List.map slashChar p)
      = List.map slashChar p :=
    upsSegSub_id "scripts".data hud "../scripts/".data rfl _ h2
  unfold normalize_echo_path
  dsimp only
  rw [e1, ite_self, e2, ite_self]

/-- The per-path cfg rewrite is idempotent whenever the `/cfg/` guard is
stable under lowercasing the slash-converted path. -/
theorem cfg_path_idem (d : Nat) (p : List Char)
    (hstab :
      containsStr "/cfg/".data (List.map lowerChar (List.map slashChar p)) = true →
      containsStr "/cfg/".data (List.map slashChar p) = true) :
    normalize_cfg_path d (normalize_cfg_path d p) = normalize_cfg_path d p := by
  have hq : List.map slashChar (List.map lowerChar (List.map slashChar p))
      = List.map lowerChar (List.map slashChar p) :=
    map_slash_id_of_no_bs (no_bs_map_lower (no_bs_map_slash p))
  cases hc : containsStr "/cfg/".data (List.map slashChar p) with
  | false =>
    rw [cfg_path_eval_nocfg hc]
    have hg : containsStr "/cfg/".data
        (List.map slashChar (List.map lowerChar (List.map slashChar p)))
          = false := by
      rw [hq]
      cases hx : containsStr "/cfg/".data
          (List.map lowerChar (List.map slashChar p)) with
      | false => rfl
      | true => rw [hstab hx] at hc; cases hc
    rw [cfg_path_eval_nocfg hg, hq, lowerStr_idem]
  | true =>
    by_cases hcnt : countUps (List.map slashChar p) = d + CFG_DEPTH_OFFSET
    · rw [cfg_path_eval_eq hc hcnt]
      cases hg : containsStr "/cfg/".data
          (List.map slashChar (List.map lowerChar (List.map slashChar p))) with
      | false => rw [cfg_path_eval_nocfg hg, hq, lowerStr_idem]
      | true =>
        have hcnt2 : countUps
            (List.map slashChar (List.map lowerChar (List.map slashChar p)))
              = d + CFG_DEPTH_OFFSET := by
          rw [hq, countUps_map_lower]
          exact hcnt
        rw [cfg_path_eval_eq hg hcnt2, hq, lowerStr_idem]
    · rw [cfg_path_eval_ne hc hcnt]
      have hnb : ∀ c ∈ upsN (d + CFG_DEPTH_OFFSET)
          ++ List.map lowerChar
              (extract_path_after_parents (List.map slashChar p)), c ≠ '\\' := by
        intro c hcm
        rcases List.mem_append.mp hcm with h | h
        · exact mem_upsN_ne_bs h
        · exact no_bs_map_lower
            (fun e he => no_bs_map_slash p e (extract_mem he)) c h
      have hq2 : List.map slashChar (upsN (d + CFG_DEPTH_OFFSET)
          ++ List.map lowerChar
              (extract_path_after_parents (List.map slashChar p)))
            = upsN (d + CFG_DEPTH_OFFSET)
          ++ List.map lowerChar
              (extract_path_after_parents (List.map slashChar p)) :=
        map_slash_id_of_no_bs hnb
      have hlowq : List.map lowerChar (upsN (d + CFG_DEPTH_OFFSET)
          ++ List.map lowerChar
              (extract_path_after_parents (List.map slashChar p)))
            = upsN (d + CFG_DEPTH_OFFSET)
          ++ List.map lowerChar
              (extract_path_after_parents (List.map slashChar p)) := by
        rw [List.map_append, map_lower_upsN, lowerStr_idem]
      cases hg : containsStr "/cfg/".data
          (List.map slashChar (upsN (d + CFG_DEPTH_OFFSET)
            ++ List.map lowerChar
                (extract_path_after_parents (List.map slashChar p)))) with
      | false => rw [cfg_path_eval_nocfg hg, hq2, hlowq]
      | true =>
        by_cases hcc : countUps (List.map slashChar (upsN (d + CFG_DEPTH_OFFSET)
            ++ List.map lowerChar
                (extract_path_after_parents (List.map slashChar p))))
              = d + CFG_DEPTH_OFFSET
        · rw [cfg_path_eval_eq hg hcc, hq2, hlowq]
        · rw [cfg_path_eval_ne hg hcc, hq2, extract_upsN_append,
            extract_eq_of_leadingUps_zero
              (by rw [leadingUps_map_lower]; exact leadingUps_extract _),
            lowerStr_idem]

/-- The per-path echo rewrite is idempotent whenever the lowercased
slash-converted path contains neither `../resource/` nor `../scripts/`, so
that the inner substitutions cannot fire on either run. -/
theorem echo_path_idem_weak (hud p : List Char)
    (h1 : containsStr "../resource/".data
        (List.map lowerChar (List.map slashChar p)) = false)
    (h2 : containsStr "../scripts/".data
        (List.map lowerChar (List.map slashChar p)) = false) :
    normalize_echo_path hud (normalize_echo_path hud p)
      = normalize_echo_path hud p := by
  have h1p : containsStr "../resource/".data (List.map slashChar p) = false := by
    cases hx : containsStr "../resource/".data (List.map slashChar p) with
    | false => rfl
    | true =>
      have hm := containsStr_map_lower hx
      rw [show List.map lowerChar "../resource/".data = "../resource/".data
        from by decide] at hm
      rw [hm] at h1
      cases h1
  have h2p : containsStr "../scripts/".data (List.map slashChar p) = false := by
    cases hx : containsStr "../scripts/".data (List.map slashChar p) with
    | false => rfl
    | true =>
      have hm := containsStr_map_lower hx
      rw [show List.map lowerChar "../scripts/".data = "../scripts/".data
        from by decide] at hm
      rw [hm] at h2
      cases h2
  have hq : List.map slashChar (List.map lowerChar (List.map slashChar p))
      = List.map lowerChar (List.map slashChar p) :=
    map_slash_id_of_no_bs (no_bs_map_lower (no_bs_map_slash p))
  rw [echo_path_eval_no_ups hud p h1p h2p]
  rw [echo_path_eval_no_ups hud (List.map lowerChar (List.map slashChar p))
    (by rw [hq]; exact h1) (by rw [hq]; exact h2), hq, lowerStr_idem]

/-- Claim C1 counterexample: the pipeline is not idempotent. A second run
of the `.res` cfg pass rewrites `#base "../CFG/x.txt"` again, because the
first run only lowercases it (the case-sensitive `/cfg/` guard fails before
lowercasing) and the second run then sees `/cfg/` and re-prefixes the depth.
The echo pass behaves the same way on `../RESOURCE/a.res`. -/
theorem claim1_counterexample :
    normalize_cfg_paths_in_res
        (normalize_cfg_paths_in_res "#base \"../CFG/x.txt\"".data 0) 0
      ≠ normalize_cfg_paths_in_res "#base \"../CFG/x.txt\"".data 0 ∧
    normalize_cfg_echo_paths
        (normalize_cfg_echo_paths "echo #base ../RESOURCE/a.res".data "myhud".data)
        "myhud".data
      ≠ normalize_cfg_echo_paths "echo #base ../RESOURCE/a.res".data "myhud".data := by
  constructor
  · decide
  · decide

/-- Claim C1 (amended): the pipeline's stages are fixed points on their own
output only under case-stability provisos. (1) The renaming stage is a
fixed point of itself on duplicate-free prefix-closed trees; (2) the value
rewrite of the font, res-base and schema passes (backslash conversion plus
lowercasing) is idempotent; (3) the per-path echo rewrite is idempotent
when the lowercased slash-converted path contains neither `../resource/`
nor `../scripts/`; (4) the per-path cfg rewrite is idempotent when the
case-sensitive `/cfg/` guard is stable under lowercasing. Without provisos
(3) and (4) a second run modifies files, as the counterexample shows. -/
theorem claim1_pipeline_amended :
    (∀ fs : List FsPath, fs.Nodup → PrefixClosed fs →
      normalize_filenames (normalize_filenames fs) = normalize_filenames fs) ∧
    (∀ v : List Char,
      List.map slashLower (List.map slashLower v) = List.map slashLower v) ∧
    (∀ hud p : List Char,
      containsStr "../resource/".data
          (List.map lowerChar (List.map slashChar p)) = false →
      containsStr "../scripts/".data
          (List.map lowerChar (List.map slashChar p)) = false →
      normalize_echo_path hud (normalize_echo_path hud p)
        = normalize_echo_path hud p) ∧
    (∀ (d : Nat) (p : List Char),
      (containsStr "/cfg/".data
          (List.map lowerChar (List.map slashChar p)) = true →
       containsStr "/cfg/".data (List.map slashChar p) = true) →
      normalize_cfg_path d (normalize_cfg_path d p) = normalize_cfg_path d p) := by
  refine ⟨normalize_filenames_fixed, ?_, echo_path_idem_weak, cfg_path_idem⟩
  intro v
  induction v with
  | nil => rfl
  | cons c t ih => simp only [List.map_cons, slashLower_idem, ih]

/-- Witness for the amended C1 theorem at concrete inputs, with every
hypothesis discharged by evaluation. -/
theorem claim1_pipeline_amended_witness :
    (([["Dir".data]] : List FsPath).Nodup ∧ PrefixClosed [["Dir".data]] ∧
      normalize_filenames (normalize_filenames [["Dir".data]])
        = normalize_filenames [["Dir".data]]) ∧
    List.map slashLower (List.map slashLower "Re\\S.ttf".data)
      = List.map slashLower "Re\\S.ttf".data ∧
    (containsStr "../resource/".data
        (List.map lowerChar (List.map slashChar "x/Y.res".data)) = false ∧
      containsStr "../scripts/".data
        (List.map lowerChar (List.map slashChar "x/Y.res".data)) = false ∧
      normalize_echo_path "myhud".data
          (normalize_echo_path "myhud".data "x/Y.res".data)
        = normalize_echo_path "myhud".data "x/Y.res".data) ∧
    ((containsStr "/cfg/".data
        (List.map lowerChar (List.map slashChar "../cfg/x.txt".data)) = true →
      containsStr "/cfg/".data (List.map slashChar "../cfg/x.txt".data) = true) ∧
      normalize_cfg_path 0 (normalize_cfg_path 0 "../cfg/x.txt".data)
        = normalize_cfg_path 0 "../cfg/x.txt".data) :=
  ⟨⟨by decide, by unfold PrefixClosed; decide,
      claim1_pipeline_amended.1 [["Dir".data]] (by decide)
        (by unfold PrefixClosed; decide)⟩,
    claim1_pipeline_amended.2.1 "Re\\S.ttf".data,
    ⟨by decide, by decide,
      claim1_pipeline_amended.2.2.1 "myhud".data "x/Y.res".data
        (by decide) (by decide)⟩,
    ⟨by decide,
      claim1_pipeline_amended.2.2.2 0 "../cfg/x.txt".data (by decide)⟩⟩

end HudNorm
